import Mathlib

/-!
# DavinciDAO census tooling: leaf codec, event replay, validation and proofs

A shallow embedding of the Go sources

* `go-tool/census/reconstruct.go` (package `census`): `PackLeaf`, `UnpackLeaf`,
  `ReconstructTree` (paging loop and replay loop), `ValidateRoot`;
* `delegation-tool/internal/merkle/tree.go` (package `merkle`): `PackLeaf`,
  `generateLeanIMTProof`, `ReconstructTree`, `Tree.GenerateProof`;
* `go-tool/subgraph/client.go` (package `subgraph`): the ordering arguments of the query of
  `GetWeightChangeEvents`;
* `delegation-tool/cmd/delegate/main.go`: `waitForConfirmations`.

Go's `*big.Int` is embedded as `Int`; the bitwise operations follow the
two's-complement semantics of `math/big`.  A `uint64` is a `Nat` below `2^64`,
an `int64` is an `Int` in `[-2^63, 2^63)`.
-/

/-! ## Machine integers and `math/big` -/

/-- A byte. -/
abbrev Byte := Fin 256

/-- Go conversion `int64(w)` of a `uint64`: reinterpretation of the low 64 bits
as a two's-complement signed number. -/
def int64OfUint64 (w : Nat) : Int :=
  if w % 2 ^ 64 < 2 ^ 63 then Int.ofNat (w % 2 ^ 64)
  else Int.negSucc (2 ^ 64 - 1 - w % 2 ^ 64)

/-- The `nat.andNot` primitive of `math/big`: the bits of `x` that are not set in `y`. -/
def natAndNot (x y : Nat) : Nat := x ^^^ (x &&& y)

/-- The method `(*big.Int).Or`: bitwise or on two's-complement integers.
`Int.negSucc n` is the negative number whose absolute value minus one is `n`. -/
def bigOr : Int → Int → Int
  | Int.ofNat x, Int.ofNat y => Int.ofNat (x ||| y)
  | Int.negSucc x, Int.negSucc y => Int.negSucc (x &&& y)
  | Int.ofNat x, Int.negSucc y => Int.negSucc (natAndNot y x)
  | Int.negSucc x, Int.ofNat y => Int.negSucc (natAndNot x y)

/-- The method `(*big.Int).And`: bitwise and on two's-complement integers. -/
def bigAnd : Int → Int → Int
  | Int.ofNat x, Int.ofNat y => Int.ofNat (x &&& y)
  | Int.negSucc x, Int.negSucc y => Int.negSucc (x ||| y)
  | Int.ofNat x, Int.negSucc y => Int.ofNat (natAndNot x y)
  | Int.negSucc x, Int.ofNat y => Int.ofNat (natAndNot y x)

/-- The method `(*big.Int).Lsh`: shifts the absolute value and keeps the sign. -/
def bigLsh : Int → Nat → Int
  | Int.ofNat x, n => Int.ofNat (x <<< n)
  | Int.negSucc x, n => -Int.ofNat ((x + 1) <<< n)

/-- The method `(*big.Int).Rsh`: arithmetic shift right. -/
def bigRsh : Int → Nat → Int
  | Int.ofNat x, n => Int.ofNat (x >>> n)
  | Int.negSucc x, n => Int.negSucc (x >>> n)

/-- The method `(*big.Int).SetBytes`: the bytes read as a big-endian unsigned integer. -/
def bigSetBytes (bs : List Byte) : Int :=
  Int.ofNat (bs.foldl (fun acc b => acc * 256 + b.val) 0)

/-- Big-endian digits of `n` in base 256 pushed in front of `acc`; `fuel` bounds the
number of digits. -/
def natBytesAux : Nat → Nat → List Byte → List Byte
  | 0, _, acc => acc
  | fuel + 1, n, acc =>
    if n = 0 then acc
    else natBytesAux fuel (n / 256) (⟨n % 256, Nat.mod_lt n (by decide)⟩ :: acc)

/-- The method `(*big.Int).Bytes`: the absolute value as a big-endian byte slice
without leading zero bytes. -/
def bigBytes (x : Int) : List Byte := natBytesAux x.natAbs x.natAbs []

/-- The method `(*big.Int).Uint64`: the low 64 bits of the absolute value. -/
def bigUint64 (x : Int) : Nat := x.natAbs % 2 ^ 64

/-- Go's builtin `copy(dst[off:], src)` on byte slices: overwrites `dst` from offset `off`
with as many bytes of `src` as fit. -/
def goCopy (dst : List Byte) (off : Nat) (src : List Byte) : List Byte :=
  dst.take off ++ src.take (dst.length - off) ++
    dst.drop (off + min src.length (dst.length - off))

/-! ## Addresses -/

/-- The type `common.Address`: an array of 20 bytes. -/
structure Address where
  bytes : List Byte
  size : bytes.length = 20
  deriving DecidableEq

/-- The zero value `common.Address{}`. -/
def Address.zero : Address := ⟨List.replicate 20 0, by simp⟩

/-! ## Leaf codec -/

namespace census

/-- Go function `census.PackLeaf` of `reconstruct.go`. -/
def PackLeaf (address : Address) (weight : Nat) : Int :=
  let addr := bigSetBytes address.bytes
  let leaf := bigLsh addr 88
  bigOr leaf (int64OfUint64 weight)

/-- Go function `census.UnpackLeaf` of `reconstruct.go`. -/
def UnpackLeaf (leaf : Int) : Address × Nat :=
  let weightMask := bigLsh 1 88 - 1
  let weight := bigAnd leaf weightMask
  let addr := bigRsh leaf 88
  let addrBytes := bigBytes addr
  let zero := Address.zero
  let address : Address :=
    if addrBytes.length ≤ 20 then
      ⟨goCopy zero.bytes (20 - addrBytes.length) addrBytes,
        by simp only [goCopy, List.length_append, List.length_take, List.length_drop, zero.size]
           omega⟩
    else
      ⟨goCopy zero.bytes 0 (addrBytes.drop (addrBytes.length - 20)),
        by simp only [goCopy, List.length_append, List.length_take, List.length_drop, zero.size]
           omega⟩
  (address, bigUint64 weight)

end census

namespace merkle

/-- Go function `merkle.PackLeaf` of `internal/merkle/tree.go`; `SetUint64` keeps the
unsigned value of the weight. -/
def PackLeaf (address : Address) (weight : Nat) : Int :=
  let addressInt := bigSetBytes address.bytes
  let addressShifted := bigLsh addressInt 88
  addressShifted + Int.ofNat (weight % 2 ^ 64)

end merkle

/-! ## Event feed -/

namespace subgraph

/-- The `Account` field of `subgraph.WeightChangeEvent`. -/
structure Account where
  ID : String
  Address : String
  deriving DecidableEq

/-- Go type `subgraph.WeightChangeEvent` of `subgraph/client.go`. -/
structure WeightChangeEvent where
  ID : String
  Account : Account
  PreviousWeight : String
  NewWeight : String
  BlockNumber : String
  BlockTimestamp : String
  TransactionHash : String
  LogIndex : String
  deriving DecidableEq

end subgraph

namespace strconv

/-- Go function `strconv.ParseUint(s, 10, 64)`: succeeds exactly on a non-empty string of
decimal digits (no sign, no underscore) whose value fits in 64 bits. -/
def ParseUint (s : String) : Option Nat :=
  if s.data.isEmpty then none
  else if s.data.all Char.isDigit then
    let n := s.data.foldl (fun n c => n * 10 + (c.toNat - 48)) 0
    if n < 2 ^ 64 then some n else none
  else none

end strconv

/-! ## The incremental Merkle tree -/

/-- Modelled from the spec: the tree `leanimt.LeanIMT[*big.Int]` of the package
`github.com/vocdoni/lean-imt-go`, which is not part of the sources.  Its state is the
ordered node array of leaf values, indexed from 0. -/
structure LeanIMT where
  nodes : List Int
  deriving DecidableEq

namespace LeanIMT

/-- Modelled from the spec: the tree is created empty (`leanimt.New` without leaves). -/
def New : LeanIMT := ⟨[]⟩

/-- Modelled from the spec: `size()` is the node-array length including tombstoned slots. -/
def Size (t : LeanIMT) : Nat := t.nodes.length

/-- Modelled from the spec: `insert(leaf)` requires `leaf != 0` and appends `leaf` at
index = current size. -/
def Insert (t : LeanIMT) (leaf : Int) : Option LeanIMT :=
  if leaf = 0 then none else some ⟨t.nodes ++ [leaf]⟩

/-- Modelled from the spec: `update(index, leaf)` requires `0 <= index < size` and overwrites
the node array at `index` with `leaf`. -/
def Update (t : LeanIMT) (index : Int) (leaf : Int) : Option LeanIMT :=
  if 0 ≤ index ∧ index < (t.nodes.length : Int) then some ⟨t.nodes.set index.toNat leaf⟩
  else none

/-- Modelled from the spec: `index_of(leaf)` is a linear search for the index holding the
exact value of `leaf`; as in the Go library the result is `-1` when there is none. -/
def IndexOf (t : LeanIMT) (leaf : Int) : Int :=
  if t.nodes.indexOf leaf < t.nodes.length then (t.nodes.indexOf leaf : Int) else -1

/-- Modelled from the spec: one level of hashing.  Each adjacent pair is replaced by the
hash of the ordered pair; a last node without sibling is copied unchanged. -/
def hashLevel (hash : Int → Int → Int) : List Int → List Int
  | a :: b :: rest => hash a b :: hashLevel hash rest
  | [a] => [a]
  | [] => []

/-- Levels are hashed until at most one node is left; `fuel` bounds the number of levels. -/
def topLevel (hash : Int → Int → Int) : Nat → List Int → List Int
  | 0, level => level
  | fuel + 1, level =>
    if level.length ≤ 1 then level else topLevel hash fuel (hashLevel hash level)

/-- Modelled from the spec: `root()` is the hash at the top of the current tree, or
"no root" if the size is 0. -/
def Root (hash : Int → Int → Int) (t : LeanIMT) : Option Int :=
  (topLevel hash t.nodes.length t.nodes).head?

end LeanIMT

/-! ## Reconstruction by event replay -/

deriving instance DecidableEq for Except

namespace census

/-- Go type `census.weightChangeEvent` of `reconstruct.go`. -/
structure weightChangeEvent where
  accountID : String
  accountAddress : String
  previousWeight : String
  newWeight : String
  blockNumber : String
  blockTimestamp : String
  transactionHash : String
  logIndex : String
  deriving DecidableEq

/-- The errors returned by `census.ReconstructTree`, one constructor per `fmt.Errorf` of
the function, with the values that the message is formatted from. -/
inductive ReconstructError where
  | fetchFailed (cause : String)
  | invalidPreviousWeight (i : Nat)
  | invalidNewWeight (i : Nat)
  | insertFailed (i : Nat)
  | removeLeafNotFound (account : Address) (i : Nat)
  | removeUpdateFailed (i : Nat)
  | updateLeafNotFound (account : Address) (i : Nat)
  | updateFailed (i : Nat)
  | rootDoesNotExist
  deriving DecidableEq

/-- The body of the replay loop of `census.ReconstructTree` (step 3) for the event `event`
at position `i`.  `HexToAddress` is `common.HexToAddress` of go-ethereum. -/
def replayEvent (HexToAddress : String → Address) (tree : LeanIMT) (i : Nat)
    (event : weightChangeEvent) : Except ReconstructError LeanIMT :=
  match strconv.ParseUint event.previousWeight with
  | none => .error (.invalidPreviousWeight i)
  | some prevWeight =>
    match strconv.ParseUint event.newWeight with
    | none => .error (.invalidNewWeight i)
    | some newWeight =>
      let accountAddr := HexToAddress event.accountID
      let addr := bigSetBytes accountAddr.bytes
      let oldLeaf := bigOr (bigLsh addr 88) (int64OfUint64 prevWeight)
      let newLeaf := bigOr (bigLsh addr 88) (int64OfUint64 newWeight)
      if prevWeight = 0 ∧ newWeight > 0 then
        match tree.Insert newLeaf with
        | none => .error (.insertFailed i)
        | some tree1 => .ok tree1
      else if newWeight = 0 ∧ prevWeight > 0 then
        let index := tree.IndexOf oldLeaf
        if index = -1 then .error (.removeLeafNotFound accountAddr i)
        else
          match tree.Update index 0 with
          | none => .error (.removeUpdateFailed i)
          | some tree1 => .ok tree1
      else if prevWeight > 0 ∧ newWeight > 0 then
        let index := tree.IndexOf oldLeaf
        if index = -1 then .error (.updateLeafNotFound accountAddr i)
        else
          match tree.Update index newLeaf with
          | none => .error (.updateFailed i)
          | some tree1 => .ok tree1
      else .ok tree

/-- The replay loop `for i, event := range allEvents` of `census.ReconstructTree`, started
at position `i` on the tree `tree`; the first error aborts the loop. -/
def replayLoop (HexToAddress : String → Address) :
    LeanIMT → Nat → List weightChangeEvent → Except ReconstructError LeanIMT
  | tree, _, [] => .ok tree
  | tree, i, event :: rest =>
    match replayEvent HexToAddress tree i event with
    | .error err => .error err
    | .ok tree1 => replayLoop HexToAddress tree1 (i + 1) rest

/-- Steps 2 to 4 of `census.ReconstructTree`, after all events were fetched: the early
return on an empty history, the replay and the final root. -/
def reconstructFromEvents (HexToAddress : String → Address) (hash : Int → Int → Int)
    (allEvents : List weightChangeEvent) : Except ReconstructError (LeanIMT × Int) :=
  if allEvents.length = 0 then .ok (LeanIMT.New, 0)
  else
    match replayLoop HexToAddress LeanIMT.New 0 allEvents with
    | .error err => .error err
    | .ok tree =>
      match tree.Root hash with
      | none => .error .rootDoesNotExist
      | some root => .ok (tree, root)

/-- The conversion of a fetched event to the internal format. -/
def toInternal (e : subgraph.WeightChangeEvent) : weightChangeEvent :=
  { accountID := e.Account.ID
    accountAddress := e.Account.Address
    previousWeight := e.PreviousWeight
    newWeight := e.NewWeight
    blockNumber := e.BlockNumber
    blockTimestamp := e.BlockTimestamp
    transactionHash := e.TransactionHash
    logIndex := e.LogIndex }

/-- Step 1 of `census.ReconstructTree`: the paging loop.  `GetWeightChangeEvents first skip`
is the request to the subgraph client; `fuel` bounds the number of requests, and the result
is `none` when it runs out. -/
def fetchAllEvents
    (GetWeightChangeEvents : Nat → Nat → Except String (List subgraph.WeightChangeEvent))
    (pageSize : Nat) :
    Nat → Nat → List weightChangeEvent → Option (Except ReconstructError (List weightChangeEvent))
  | 0, _, _ => none
  | fuel + 1, skip, allEvents =>
    match GetWeightChangeEvents pageSize skip with
    | .error cause => some (.error (.fetchFailed cause))
    | .ok events =>
      if events.length = 0 then some (.ok allEvents)
      else
        let allEvents1 := allEvents ++ events.map toInternal
        if events.length < pageSize then some (.ok allEvents1)
        else fetchAllEvents GetWeightChangeEvents pageSize fuel (skip + pageSize) allEvents1

/-- Go function `census.ReconstructTree` of `reconstruct.go`. -/
def ReconstructTree
    (GetWeightChangeEvents : Nat → Nat → Except String (List subgraph.WeightChangeEvent))
    (HexToAddress : String → Address) (hash : Int → Int → Int) (fuel : Nat) :
    Option (Except ReconstructError (LeanIMT × Int)) :=
  match fetchAllEvents GetWeightChangeEvents 1000 fuel 0 [] with
  | none => none
  | some (.error err) => some (.error err)
  | some (.ok allEvents) => some (reconstructFromEvents HexToAddress hash allEvents)

end census

/-! ## Concrete collaborators for evaluation -/

/-- Value of a hexadecimal digit. -/
def hexDigit (c : Char) : Option Nat :=
  if 48 ≤ c.toNat ∧ c.toNat ≤ 57 then some (c.toNat - 48)
  else if 97 ≤ c.toNat ∧ c.toNat ≤ 102 then some (c.toNat - 87)
  else if 65 ≤ c.toNat ∧ c.toNat ≤ 70 then some (c.toNat - 55)
  else none

/-- Decoding of pairs of hexadecimal digits, up to the first invalid one. -/
def decodeHex : List Char → List Byte
  | a :: b :: rest =>
    match hexDigit a, hexDigit b with
    | some x, some y => ⟨(x * 16 + y) % 256, Nat.mod_lt _ (by decide)⟩ :: decodeHex rest
    | _, _ => []
  | _ => []

/-- A parser of account identifiers that behaves as `common.HexToAddress` of go-ethereum on
ASCII input: an optional `0x` prefix is dropped, an odd number of digits is completed by a
leading `0`, and the last 20 decoded bytes are right-aligned in the address. -/
def hexToAddress (s : String) : Address :=
  let cs := s.data
  let cs := if cs.take 2 = ['0', 'x'] ∨ cs.take 2 = ['0', 'X'] then cs.drop 2 else cs
  let cs := if cs.length % 2 = 1 then '0' :: cs else cs
  let b := decodeHex cs
  let b := if b.length > 20 then b.drop (b.length - 20) else b
  ⟨goCopy Address.zero.bytes (20 - b.length) b,
    by simp only [goCopy, List.length_append, List.length_take, List.length_drop,
         Address.zero.size]
       omega⟩

/-- A stand-in for the Poseidon hash on concrete inputs; every theorem about hashing is
stated for an arbitrary hash function. -/
def sampleHash (a b : Int) : Int := 31 * a + 17 * b + 7

/-- An event of the internal format with the given account and weights. -/
def census.mkEvent (account previousWeight newWeight : String) : census.weightChangeEvent :=
  { accountID := account
    accountAddress := account
    previousWeight := previousWeight
    newWeight := newWeight
    blockNumber := "1"
    blockTimestamp := "1"
    transactionHash := "0x00"
    logIndex := "0" }

/-- A fetched event with the given account and weights. -/
def subgraph.mkEvent (account previousWeight newWeight : String) : subgraph.WeightChangeEvent :=
  { ID := "0x00-0"
    Account := { ID := account, Address := account }
    PreviousWeight := previousWeight
    NewWeight := newWeight
    BlockNumber := "1"
    BlockTimestamp := "1"
    TransactionHash := "0x00"
    LogIndex := "0" }

/-- An event source whose whole history is the single page `page`: the request at offset 0
returns `page`, every later request returns the empty page. -/
def subgraph.singlePage (page : List subgraph.WeightChangeEvent) :
    Nat → Nat → Except String (List subgraph.WeightChangeEvent) :=
  fun _ skip => if skip = 0 then .ok page else .ok []

/-- An event source that is not consistent with a fixed history: one event at offset 0, one
event at offset 1000 and the empty page at every other offset. -/
def subgraph.sparsePages : Nat → Nat → Except String (List subgraph.WeightChangeEvent) :=
  fun _ skip =>
    if skip = 0 then .ok [subgraph.mkEvent "0x00000000000000000000000000000000000000aa" "0" "5"]
    else if skip = 1000 then
      .ok [subgraph.mkEvent "0x00000000000000000000000000000000000000bb" "0" "3"]
    else .ok []

/-- The pages of a history of 1001 events: a full page of 1000 events at offset 0, one event
at offset 1000 and the empty page at every other offset. -/
def subgraph.fullThenShort : Nat → List subgraph.WeightChangeEvent :=
  fun skip =>
    if skip = 0 then
      List.replicate 1000 (subgraph.mkEvent "0x00000000000000000000000000000000000000aa" "0" "5")
    else if skip = 1000 then
      [subgraph.mkEvent "0x00000000000000000000000000000000000000bb" "0" "3"]
    else []

/-! ## Reference values -/

/-- The big-endian unsigned value of a byte string: the first byte is the most significant. -/
def beValue : List Byte → Nat
  | [] => 0
  | b :: bs => b.val * 256 ^ bs.length + beValue bs

/-- The address read as a big-endian unsigned 160-bit integer. -/
def Address.value (a : Address) : Nat := beValue a.bytes

/-! ## Root validation -/

namespace census

/-- The verb `%x` of `fmt` on a `*big.Int`: the lower-case hexadecimal digits of the absolute
value without leading zeros (`0` for zero), after a `-` sign for a negative number. -/
def formatHex : Int → String
  | Int.ofNat n => String.mk (Nat.toDigits 16 n)
  | Int.negSucc n => "-" ++ String.mk (Nat.toDigits 16 (n + 1))

/-- The errors returned by `census.ValidateRoot`, with the values that the message is
formatted from. -/
inductive ValidateError where
  | treeHasNoRoot
  | rootMismatch (expectedRoot root : Int)
  deriving DecidableEq

/-- The text of the error, as built by `fmt.Errorf` in `census.ValidateRoot`. -/
def ValidateError.text : ValidateError → String
  | .treeHasNoRoot => "tree has no root"
  | .rootMismatch expectedRoot root =>
    "root mismatch: expected 0x" ++ formatHex expectedRoot ++ ", got 0x" ++ formatHex root

/-- Go function `census.ValidateRoot` of `reconstruct.go`. -/
def ValidateRoot (hash : Int → Int → Int) (tree : LeanIMT) (expectedRoot : Int) :
    Except ValidateError Unit :=
  match tree.Root hash with
  | none => .error .treeHasNoRoot
  | some root =>
    if root ≠ expectedRoot then .error (.rootMismatch expectedRoot root)
    else .ok ()

end census

/-! ## Proof generation of the delegation tool -/

namespace merkle

/-- The errors returned by `generateLeanIMTProof`. -/
inductive ProofError where
  | outOfBounds (targetIndex size : Nat)
  | hashFailed (cause : String)
  deriving DecidableEq

/-- The inner loop "Build next level" of `generateLeanIMTProof`: pairs are hashed from left to
right, an odd last node is copied up, and the first failure of `poseidon.Hash` aborts. -/
def buildNextLevel (hash : Int → Int → Except String Int) :
    List Int → Except ProofError (List Int)
  | a :: b :: rest =>
    match hash a b with
    | .error cause => .error (.hashFailed cause)
    | .ok h =>
      match buildNextLevel hash rest with
      | .error err => .error err
      | .ok nextLevel => .ok (h :: nextLevel)
  | [a] => .ok [a]
  | [] => .ok []

/-- The loop `for len(currentLevel) > 1` of `generateLeanIMTProof`.  Every round shortens the
level, `fuel` bounds the number of rounds. -/
def proofLoop (hash : Int → Int → Except String Int) :
    Nat → List Int → Nat → List Int → Except ProofError (List Int)
  | 0, _, _, siblings => .ok siblings
  | fuel + 1, currentLevel, currentIndex, siblings =>
    if currentLevel.length > 1 then
      let siblingIndex := if currentIndex % 2 = 0 then currentIndex + 1 else currentIndex - 1
      let siblings1 :=
        if h : siblingIndex < currentLevel.length then siblings ++ [currentLevel[siblingIndex]]
        else siblings
      match buildNextLevel hash currentLevel with
      | .error err => .error err
      | .ok nextLevel => proofLoop hash fuel nextLevel (currentIndex / 2) siblings1
    else .ok siblings

/-- Go function `generateLeanIMTProof` of `internal/merkle/tree.go`, for a target index that
is not negative.  `hash a b` is `poseidon.Hash([]*big.Int{a, b})`. -/
def generateLeanIMTProof (hash : Int → Int → Except String Int) (leaves : List Int)
    (targetIndex : Nat) : Except ProofError (List Int) :=
  if targetIndex ≥ leaves.length then .error (.outOfBounds targetIndex leaves.length)
  else proofLoop hash leaves.length leaves targetIndex []

/-- A hash function that never fails, seen as a hasher with an error result. -/
def okHash (h : Int → Int → Int) : Int → Int → Except String Int :=
  fun a b => .ok (h a b)

/-- The levels of the reference tree: `L_0` is the leaf list, `L_(k+1)` is obtained from `L_k`
by hashing each adjacent pair and copying an unpaired last element unchanged. -/
def refLevel (h : Int → Int → Int) (leaves : List Int) : Nat → List Int
  | 0 => leaves
  | k + 1 => LeanIMT.hashLevel h (refLevel h leaves k)

/-- The entry of level `k` in the reference sibling path of index `i`: the element
`L_k[p_k xor 1]` with `p_k = i / 2^k`, when `|L_k| > 1` and `p_k xor 1 < |L_k|`. -/
def refEntry (h : Int → Int → Int) (leaves : List Int) (i k : Nat) : Option Int :=
  if (refLevel h leaves k).length > 1 then (refLevel h leaves k)[(i / 2 ^ k) ^^^ 1]? else none

/-- The entries of the levels below `m`, in increasing order of the level. -/
def refPathUpTo (h : Int → Int → Int) (leaves : List Int) (i m : Nat) : List Int :=
  (List.range m).filterMap (refEntry h leaves i)

/-- The reference sibling path: the entries of all levels with more than one node; no level
from `leaves.length` on has more than one node. -/
def refSiblingPath (h : Int → Int → Int) (leaves : List Int) (i : Nat) : List Int :=
  refPathUpTo h leaves i leaves.length

end merkle

/-! ## Reference values for numerals -/

/-- The value of a string of hexadecimal digits. -/
def hexValue (s : String) : Nat :=
  s.data.foldl (fun acc c => acc * 16 + (hexDigit c).getD 0) 0

/-! ## The tree of the delegation tool -/

namespace merkle

/-- Go type `merkle.TreeNode` of `internal/merkle/tree.go`. -/
structure TreeNode where
  Index : Nat
  Address : Address
  Weight : Nat
  Leaf : Int
  deriving DecidableEq

/-- Go type `merkle.Tree` of `internal/merkle/tree.go`. -/
structure Tree where
  Root : Int
  Nodes : List TreeNode
  deriving DecidableEq

/-- The read-only calls of the contract binding `census.DavinciDao` that
`merkle.ReconstructTree` uses; `GetDelegations` returns the pair `(Weight, Leaf)`. -/
structure Contract where
  GetCensusRoot : Except String Int
  GetAccountAt : Nat → Except String Address
  GetDelegations : Address → Except String (Int × Int)

/-- The errors returned by `merkle.ReconstructTree`. -/
inductive ReconstructError where
  | censusRootFailed (cause : String)
  | accountAtFailed (index : Nat) (cause : String)
  | delegationsFailed (account : Address) (cause : String)
  deriving DecidableEq

/-- The loop `for consecutiveEmpty < maxAttempts` of `merkle.ReconstructTree`, entered with
the counters `consecutiveEmpty` and `index` and the nodes found so far.  `fuel` bounds the
number of rounds, and the result is `none` when it runs out. -/
def enumerateAccounts (contract : Contract) (maxAttempts : Int) :
    Nat → Nat → Nat → List TreeNode → Option (Except ReconstructError (List TreeNode))
  | 0, consecutiveEmpty, _, nodes =>
    if (consecutiveEmpty : Int) < maxAttempts then none else some (.ok nodes)
  | fuel + 1, consecutiveEmpty, index, nodes =>
    if (consecutiveEmpty : Int) < maxAttempts then
      match contract.GetAccountAt index with
      | .error cause => some (.error (.accountAtFailed index cause))
      | .ok addr =>
        if addr = Address.zero then
          enumerateAccounts contract maxAttempts fuel (consecutiveEmpty + 1) (index + 1) nodes
        else
          match contract.GetDelegations addr with
          | .error cause => some (.error (.delegationsFailed addr cause))
          | .ok result =>
            enumerateAccounts contract maxAttempts fuel 0 (index + 1)
              (nodes ++ [{ Index := index, Address := addr, Weight := bigUint64 result.1,
                           Leaf := result.2 }])
    else some (.ok nodes)

/-- Go function `merkle.ReconstructTree` of `internal/merkle/tree.go`. -/
def ReconstructTree (contract : Contract) (maxAttempts : Int) (fuel : Nat) :
    Option (Except ReconstructError Tree) :=
  match contract.GetCensusRoot with
  | .error cause => some (.error (.censusRootFailed cause))
  | .ok root =>
    if root = 0 then some (.ok { Root := root, Nodes := [] })
    else
      match enumerateAccounts contract maxAttempts fuel 0 0 [] with
      | none => none
      | some (.error err) => some (.error err)
      | some (.ok nodes) => some (.ok { Root := root, Nodes := nodes })

/-- The error returned by `Tree.GenerateProof`: the wrapped error of
`generateLeanIMTProof`. -/
inductive GenerateProofError where
  | generateFailed (cause : ProofError)
  deriving DecidableEq

/-- Go method `(*Tree).GenerateProof` of `internal/merkle/tree.go`. -/
def Tree.GenerateProof (hash : Int → Int → Except String Int) (t : Tree) (address : Address) :
    Except GenerateProofError (List Int) :=
  match t.Nodes.findIdx? (fun node => node.Address = address) with
  | none => .ok []
  | some targetIndex =>
    let leaves := t.Nodes.map fun node => node.Leaf
    match generateLeanIMTProof hash leaves targetIndex with
    | .error err => .error (.generateFailed err)
    | .ok siblings => .ok siblings

/-- The fold of a sibling list over a leaf, level by level, for a tree of `n` leaves and the
index `i`, from level `k` on and for `m` levels.  At level `k`: if bit `k` of `i` is 1 the
node becomes `hash (next sibling) node`; else if `i / 2^k` differs from `(n - 1) / 2^k` the
node becomes `hash node (next sibling)`; else the node is kept and no sibling is consumed.
The result is the final node with the siblings left over, or `none` when a sibling is
missing. -/
def foldProof (h : Int → Int → Int) (n i : Nat) :
    Nat → Nat → Int → List Int → Option (Int × List Int)
  | _, 0, node, siblings => some (node, siblings)
  | k, m + 1, node, siblings =>
    if i.testBit k then
      match siblings with
      | s :: rest => foldProof h n i (k + 1) m (h s node) rest
      | [] => none
    else if i / 2 ^ k ≠ (n - 1) / 2 ^ k then
      match siblings with
      | s :: rest => foldProof h n i (k + 1) m (h node s) rest
      | [] => none
    else foldProof h n i (k + 1) m node siblings

/-- A contract state with an empty slot in front of an account: slot 0 was removed, slot 1
holds the account `0x..aa` with weight 5, no other slot is used. -/
def sampleContract : Contract where
  GetCensusRoot := .ok 1
  GetAccountAt := fun index =>
    if index = 1 then .ok (hexToAddress "0x00000000000000000000000000000000000000aa")
    else .ok Address.zero
  GetDelegations := fun account =>
    .ok (5, PackLeaf account 5)

end merkle

/-! ## The event query -/

namespace subgraph

/-- The arguments of the field `weightChangeEvents` in the GraphQL query of
`Client.GetWeightChangeEvents`. -/
structure EventsQuery where
  first : Nat
  skip : Nat
  orderBy : String
  orderDirection : String
  deriving DecidableEq

/-- The query that `Client.GetWeightChangeEvents` of `subgraph/client.go` sends for the page
`(first, skip)`. -/
def weightChangeEventsQuery (first skip : Nat) : EventsQuery :=
  { first := first, skip := skip, orderBy := "blockNumber", orderDirection := "asc" }

/-- The value of the field of an event that a query orders by. -/
def orderKey (field : String) (e : WeightChangeEvent) : Option Nat :=
  if field = "blockNumber" then strconv.ParseUint e.BlockNumber
  else if field = "logIndex" then strconv.ParseUint e.LogIndex
  else if field = "blockTimestamp" then strconv.ParseUint e.BlockTimestamp
  else none

/-- A response is in the order that the query asks for: ascending in the `orderBy` field. -/
def inRequestedOrder (q : EventsQuery) : List WeightChangeEvent → Bool
  | a :: b :: rest =>
    (match orderKey q.orderBy a, orderKey q.orderBy b with
      | some x, some y => decide (x ≤ y)
      | _, _ => false) && inRequestedOrder q (b :: rest)
  | _ => true

/-- An event of block `blockNumber` with log index `logIndex`. -/
def mkEventAt (account previousWeight newWeight blockNumber logIndex : String) :
    WeightChangeEvent :=
  { ID := "0x00-" ++ logIndex
    Account := { ID := account, Address := account }
    PreviousWeight := previousWeight
    NewWeight := newWeight
    BlockNumber := blockNumber
    BlockTimestamp := "1"
    TransactionHash := "0x00"
    LogIndex := logIndex }

end subgraph

/-! ## Waiting for confirmations -/

namespace delegate

/-- The fields of `types.Receipt` that `waitForConfirmations` reads. -/
structure Receipt where
  Status : Nat
  BlockNumber : Int
  deriving DecidableEq

/-- The outcome of one pass of the loop of `waitForConfirmations`: sleep and go round again,
return an error, or return the receipt. -/
inductive PassOutcome where
  | again
  | reverted
  | blockNumberFailed (cause : String)
  | confirmed (receipt : Receipt)
  deriving DecidableEq

/-- One pass of the loop of `waitForConfirmations` in `cmd/delegate/main.go`, for the answers
`receipt` of `client.TransactionReceipt` and `currentBlock` of `client.BlockNumber`.  The
difference `currentBlock - receipt.BlockNumber.Uint64()` is computed in `uint64`. -/
def waitForConfirmationsPass (receipt : Except String Receipt)
    (currentBlock : Except String Nat) (confirmations : Int) : PassOutcome :=
  match receipt with
  | .error _ => .again
  | .ok receipt =>
    if receipt.Status = 0 then .reverted
    else
      match currentBlock with
      | .error cause => .blockNumberFailed cause
      | .ok currentBlock =>
        let confirmCount :=
          (currentBlock % 2 ^ 64 + 2 ^ 64 - bigUint64 receipt.BlockNumber) % 2 ^ 64
        if confirmCount ≥ (confirmations % 2 ^ 64).toNat then .confirmed receipt
        else .again

/-- Go function `waitForConfirmations` of `cmd/delegate/main.go`: the passes are repeated
with the answers of the client at pass `t = 0, 1, ...`; `fuel` bounds the number of passes. -/
def waitForConfirmations (TransactionReceipt : Nat → Except String Receipt)
    (BlockNumber : Nat → Except String Nat) (confirmations : Int) :
    Nat → Nat → Option PassOutcome
  | 0, _ => none
  | fuel + 1, t =>
    match waitForConfirmationsPass (TransactionReceipt t) (BlockNumber t) confirmations with
    | .again => waitForConfirmations TransactionReceipt BlockNumber confirmations fuel (t + 1)
    | outcome => some outcome

end delegate

/-! ## Lemmas on `math/big` -/

theorem foldl_beValue (bs : List Byte) (acc : Nat) :
    bs.foldl (fun acc b => acc * 256 + b.val) acc = acc * 256 ^ bs.length + beValue bs := by
  induction bs generalizing acc with
  | nil => simp [beValue]
  | cons b bs ih =>
    simp only [List.foldl_cons, ih, beValue, List.length_cons, pow_succ]
    ring

theorem bigSetBytes_eq (bs : List Byte) : bigSetBytes bs = Int.ofNat (beValue bs) := by
  simp [bigSetBytes, foldl_beValue]

theorem beValue_lt (bs : List Byte) : beValue bs < 256 ^ bs.length := by
  induction bs with
  | nil => simp [beValue]
  | cons b bs ih =>
    have hb : b.val ≤ 255 := by have := b.isLt; omega
    have h1 : b.val * 256 ^ bs.length ≤ 255 * 256 ^ bs.length := Nat.mul_le_mul_right _ hb
    simp only [beValue, List.length_cons, pow_succ]
    omega

theorem Address.value_lt (a : Address) : a.value < 2 ^ 160 := by
  have h := beValue_lt a.bytes
  rw [a.size] at h
  exact h

theorem beValue_eq_zero (bs : List Byte) : beValue bs = 0 ↔ bs = List.replicate bs.length 0 := by
  induction bs with
  | nil => simp [beValue]
  | cons b bs ih =>
    simp only [beValue, List.length_cons, List.replicate_succ, List.cons.injEq]
    constructor
    · intro h
      have h1 : b.val * 256 ^ bs.length = 0 := by omega
      have h2 : beValue bs = 0 := by omega
      have h3 : b.val = 0 := by
        rcases Nat.mul_eq_zero.mp h1 with h | h
        · exact h
        · exact absurd h (by positivity)
      exact ⟨Fin.ext h3, ih.mp h2⟩
    · rintro ⟨hb, hbs⟩
      rw [ih.mpr hbs, hb]
      simp

theorem Address.value_eq_zero (a : Address) : a.value = 0 ↔ a = Address.zero := by
  unfold Address.value
  rw [beValue_eq_zero, a.size]
  constructor
  · intro h
    cases a with
    | mk bytes size =>
      simp only [Address.zero, Address.mk.injEq]
      exact h
  · intro h
    rw [h]
    rfl

theorem natAndNot_shiftLeft (n x k : Nat) (h : n < 2 ^ k) : natAndNot n (x <<< k) = n := by
  have h0 : n &&& (x <<< k) = 0 := by
    apply Nat.eq_of_testBit_eq
    intro i
    simp only [Nat.testBit_and, Nat.testBit_shiftLeft, Nat.zero_testBit]
    by_cases hik : i ≥ k
    · have : n < 2 ^ i := lt_of_lt_of_le h (Nat.pow_le_pow_right (by decide) hik)
      simp [Nat.testBit_lt_two_pow this]
    · simp [hik]
  simp [natAndNot, h0]

theorem shiftLeft_or_eq_add (x w k : Nat) (h : w < 2 ^ k) : x <<< k ||| w = x * 2 ^ k + w := by
  rw [Nat.shiftLeft_eq, Nat.mul_comm, ← Nat.mul_add_lt_is_or h]

/-- Below `2^63` the conversion `int64(w)` keeps the value. -/
theorem int64OfUint64_of_lt (w : Nat) (h : w < 2 ^ 63) : int64OfUint64 w = Int.ofNat w := by
  have h1 : w % 2 ^ 64 = w := Nat.mod_eq_of_lt (by omega)
  unfold int64OfUint64
  rw [h1, if_pos h]

/-- From `2^63` on the conversion `int64(w)` wraps around to `w - 2^64`. -/
theorem int64OfUint64_of_ge (w : Nat) (h : 2 ^ 63 ≤ w) (h64 : w < 2 ^ 64) :
    int64OfUint64 w = Int.negSucc (2 ^ 64 - 1 - w) := by
  have h1 : w % 2 ^ 64 = w := Nat.mod_eq_of_lt h64
  have h2 : ¬ w < 2 ^ 63 := by omega
  unfold int64OfUint64
  rw [h1, if_neg h2]

namespace census

/-- For a weight below `2^63`, `PackLeaf` is the documented value `A * 2^88 + w`. -/
theorem PackLeaf_of_lt (a : Address) (w : Nat) (h : w < 2 ^ 63) :
    PackLeaf a w = Int.ofNat (a.value * 2 ^ 88 + w) := by
  have hw : w < 2 ^ 88 := lt_trans h (by decide)
  simp only [PackLeaf, bigSetBytes_eq, bigLsh, int64OfUint64_of_lt w h, bigOr]
  rw [shiftLeft_or_eq_add _ _ _ hw]
  rfl

/-- For a weight from `2^63` on, the sign extension of `int64(w)` covers the address bits:
`PackLeaf` is the negative number `w - 2^64`, whatever the address. -/
theorem PackLeaf_of_ge (a : Address) (w : Nat) (h : 2 ^ 63 ≤ w) (h64 : w < 2 ^ 64) :
    PackLeaf a w = Int.negSucc (2 ^ 64 - 1 - w) := by
  have hn : 2 ^ 64 - 1 - w < 2 ^ 88 := by
    have : (2 : Nat) ^ 64 < 2 ^ 88 := by decide
    omega
  simp only [PackLeaf, bigSetBytes_eq, bigLsh, int64OfUint64_of_ge w h h64, bigOr]
  rw [natAndNot_shiftLeft _ _ _ hn]

theorem PackLeaf_ne_zero_of_pos (a : Address) (w : Nat) (h0 : 0 < w) (h64 : w < 2 ^ 64) :
    PackLeaf a w ≠ 0 := by
  by_cases h : w < 2 ^ 63
  · rw [PackLeaf_of_lt a w h]
    intro hz
    have : a.value * 2 ^ 88 + w = 0 := Int.ofNat_eq_zero.mp hz
    omega
  · rw [PackLeaf_of_ge a w (by omega) h64]
    exact Int.negSucc_ne_zero _

end census

/-! ## Leaf codec: claims -/

/-- C1: the round trip `UnpackLeaf (PackLeaf a w) = (a, w)` is broken by the code for weights
from `2^63` on.  For the address of the package's own example and the weight `2^63` the leaf
is packed from the negative `int64(w)`, and unpacking returns the address `0x00..01` instead
of the packed one (only the weight comes back). -/
theorem census_roundtrip_breaks_at_int64_overflow :
    census.UnpackLeaf
        (census.PackLeaf (hexToAddress "0x1234567890123456789012345678901234567890") (2 ^ 63))
      = (hexToAddress "0x0000000000000000000000000000000000000001", 2 ^ 63) ∧
    census.UnpackLeaf
        (census.PackLeaf (hexToAddress "0x1234567890123456789012345678901234567890") (2 ^ 63))
      ≠ (hexToAddress "0x1234567890123456789012345678901234567890", 2 ^ 63) := by
  decide

/-- C2: `census.PackLeaf` misses the documented encoding `A * 2^88 + w` for weights from
`2^63` on.  For the address `0x1234..7890` and the weight `2^63` the result is the negative
number `-2^63`, not the non-negative `A * 2^88 + 2^63`. -/
theorem census_PackLeaf_negative_at_int64_overflow :
    census.PackLeaf (hexToAddress "0x1234567890123456789012345678901234567890") (2 ^ 63)
      = -9223372036854775808 ∧
    census.PackLeaf (hexToAddress "0x1234567890123456789012345678901234567890") (2 ^ 63)
      ≠ Int.ofNat
          ((hexToAddress "0x1234567890123456789012345678901234567890").value * 2 ^ 88 + 2 ^ 63) := by
  decide

/-- C3: `merkle.PackLeaf` computes the documented encoding.  For every address `a` with
big-endian value `A` and every `uint64` weight `w`, `merkle.PackLeaf a w = A * 2^88 + w`,
which is also `(A << 88) | w`. -/
theorem merkle_PackLeaf_encoding (a : Address) (w : Nat) (hw : w < 2 ^ 64) :
    merkle.PackLeaf a w = Int.ofNat (a.value * 2 ^ 88 + w) ∧
    merkle.PackLeaf a w = Int.ofNat (a.value <<< 88 ||| w) := by
  have h88 : w < 2 ^ 88 := lt_trans hw (by decide)
  have h1 : merkle.PackLeaf a w = Int.ofNat (a.value * 2 ^ 88 + w) := by
    simp only [merkle.PackLeaf, bigSetBytes_eq, bigLsh, Nat.mod_eq_of_lt hw, Nat.shiftLeft_eq]
    rfl
  exact ⟨h1, by rw [h1, shiftLeft_or_eq_add _ _ _ h88]⟩

theorem merkle_PackLeaf_encoding_witness :
    2 ^ 64 - 1 < 2 ^ 64 ∧
    merkle.PackLeaf (hexToAddress "0x1234567890123456789012345678901234567890") (2 ^ 64 - 1)
      = Int.ofNat ((hexToAddress "0x1234567890123456789012345678901234567890").value * 2 ^ 88
          + (2 ^ 64 - 1)) ∧
    merkle.PackLeaf (hexToAddress "0x1234567890123456789012345678901234567890") (2 ^ 64 - 1)
      = Int.ofNat ((hexToAddress "0x1234567890123456789012345678901234567890").value <<< 88
          ||| (2 ^ 64 - 1)) :=
  ⟨by decide, merkle_PackLeaf_encoding _ (2 ^ 64 - 1) (by decide)⟩

/-- C4, as stated, fails: for the leaf `2^64` the weight returned by `UnpackLeaf` is `0`,
whereas `2^64 mod 2^88 = 2^64`. -/
theorem census_UnpackLeaf_weight_not_mod_88 :
    (census.UnpackLeaf (Int.ofNat (2 ^ 64))).2 = 0 ∧
    (census.UnpackLeaf (Int.ofNat (2 ^ 64))).2 ≠ 2 ^ 64 % 2 ^ 88 := by
  decide

/-- C4, amended: `census.UnpackLeaf` masks the low 88 bits and returns them as a `uint64`.
For every non-negative leaf `L` the weight returned is `(L mod 2^88) mod 2^64`. -/
theorem census_UnpackLeaf_weight (L : Nat) :
    (census.UnpackLeaf (Int.ofNat L)).2 = L % 2 ^ 88 % 2 ^ 64 := by
  have hmask : bigLsh 1 88 - 1 = Int.ofNat (2 ^ 88 - 1) := by decide
  simp only [census.UnpackLeaf, hmask, bigAnd, bigUint64, Nat.and_pow_two_sub_one_eq_mod]
  rfl

/-- C5: the leaf value 0 is reserved for the empty slot.  For every address `a` and every
`uint64` weight `w`, `census.PackLeaf a w = 0` if and only if `a` is the all-zero address and
`w = 0`. -/
theorem census_PackLeaf_eq_zero_iff (a : Address) (w : Nat) (hw : w < 2 ^ 64) :
    census.PackLeaf a w = 0 ↔ a = Address.zero ∧ w = 0 := by
  constructor
  · intro h
    by_cases h0 : 0 < w
    · exact absurd h (census.PackLeaf_ne_zero_of_pos a w h0 hw)
    · have hw0 : w = 0 := by omega
      subst hw0
      rw [census.PackLeaf_of_lt a 0 (by decide)] at h
      have h1 : a.value * 2 ^ 88 + 0 = 0 := Int.ofNat_eq_zero.mp h
      have h2 : a.value = 0 := by omega
      exact ⟨(Address.value_eq_zero a).mp h2, rfl⟩
  · rintro ⟨ha, hw0⟩
    subst ha hw0
    decide

theorem census_PackLeaf_eq_zero_iff_witness :
    0 < 2 ^ 64 ∧
    (census.PackLeaf (hexToAddress "0x0000000000000000000000000000000000000001") 0 = 0 ↔
      hexToAddress "0x0000000000000000000000000000000000000001" = Address.zero ∧ 0 = 0) :=
  ⟨by decide, census_PackLeaf_eq_zero_iff _ 0 (by decide)⟩

/-! ## Lemmas on the tree and the replay loop -/

theorem strconv.ParseUint_lt (s : String) (n : Nat) (h : strconv.ParseUint s = some n) :
    n < 2 ^ 64 := by
  unfold strconv.ParseUint at h
  split at h
  · exact absurd h (by simp)
  · split at h
    · simp only at h
      split at h
      · rename_i hlt
        have := Option.some.inj h
        omega
      · exact absurd h (by simp)
    · exact absurd h (by simp)

namespace LeanIMT

theorem IndexOf_natCast (t : LeanIMT) (leaf : Int) (k : Nat) (h : t.IndexOf leaf = (k : Int)) :
    k < t.nodes.length ∧ t.nodes[k]? = some leaf ∧ t.nodes.indexOf leaf = k := by
  unfold IndexOf at h
  split at h
  · rename_i hlt
    have hk : t.nodes.indexOf leaf = k := by exact_mod_cast h
    rw [hk] at hlt
    refine ⟨hlt, ?_, hk⟩
    have hmem : leaf ∈ t.nodes := List.indexOf_lt_length.mp (by rw [hk]; exact hlt)
    have := List.indexOf_get? hmem
    rw [hk] at this
    simpa using this
  · omega

theorem Update_natCast (t : LeanIMT) (k : Nat) (leaf : Int) (h : k < t.nodes.length) :
    t.Update (k : Int) leaf = some ⟨t.nodes.set k leaf⟩ := by
  unfold Update
  rw [if_pos ⟨by omega, by exact_mod_cast h⟩]
  simp

theorem Insert_of_ne_zero (t : LeanIMT) (leaf : Int) (h : leaf ≠ 0) :
    t.Insert leaf = some ⟨t.nodes ++ [leaf]⟩ := by
  unfold Insert
  rw [if_neg h]

theorem indexOf_of_first (leaf : Int) :
    ∀ (l : List Int) (k : Nat), l[k]? = some leaf →
      (∀ j : Nat, j < k → l[j]? ≠ some leaf) → l.indexOf leaf = k := by
  intro l
  induction l with
  | nil => intro k h _; simp at h
  | cons a l ih =>
    intro k hheld hfirst
    cases k with
    | zero =>
      simp only [List.getElem?_cons_zero, Option.some.injEq] at hheld
      exact List.indexOf_cons_eq l hheld
    | succ k =>
      have hne : a ≠ leaf := by
        intro ha
        exact hfirst 0 (by omega) (by simp [ha])
      rw [List.indexOf_cons_ne l hne]
      simp only [List.getElem?_cons_succ] at hheld
      have hrec := ih k hheld (by
        intro j hj
        have := hfirst (j + 1) (by omega)
        simpa using this)
      omega

/-- The lookup returns the lowest index that holds the leaf. -/
theorem IndexOf_of_first (t : LeanIMT) (leaf : Int) (k : Nat)
    (hheld : t.nodes[k]? = some leaf)
    (hfirst : ∀ j : Nat, j < k → t.nodes[j]? ≠ some leaf) :
    t.IndexOf leaf = (k : Int) := by
  have hidx := indexOf_of_first leaf t.nodes k hheld hfirst
  have hlt : k < t.nodes.length := (List.getElem?_eq_some.mp hheld).1
  unfold IndexOf
  rw [hidx, if_pos hlt]

end LeanIMT

namespace census

/-- The body of the replay loop once both weights are parsed, with the two leaves written
through `PackLeaf`. -/
theorem replayEvent_parsed (H : String → Address) (tree : LeanIMT) (i : Nat)
    (e : weightChangeEvent) (p n : Nat)
    (hp : strconv.ParseUint e.previousWeight = some p)
    (hn : strconv.ParseUint e.newWeight = some n) :
    replayEvent H tree i e =
      if p = 0 ∧ n > 0 then
        match tree.Insert (PackLeaf (H e.accountID) n) with
        | none => .error (.insertFailed i)
        | some tree1 => .ok tree1
      else if n = 0 ∧ p > 0 then
        if tree.IndexOf (PackLeaf (H e.accountID) p) = -1 then
          .error (.removeLeafNotFound (H e.accountID) i)
        else
          match tree.Update (tree.IndexOf (PackLeaf (H e.accountID) p)) 0 with
          | none => .error (.removeUpdateFailed i)
          | some tree1 => .ok tree1
      else if p > 0 ∧ n > 0 then
        if tree.IndexOf (PackLeaf (H e.accountID) p) = -1 then
          .error (.updateLeafNotFound (H e.accountID) i)
        else
          match tree.Update (tree.IndexOf (PackLeaf (H e.accountID) p))
              (PackLeaf (H e.accountID) n) with
          | none => .error (.updateFailed i)
          | some tree1 => .ok tree1
      else .ok tree := by
  simp only [replayEvent, hp, hn, PackLeaf]

/-- An INSERT event appends the new leaf. -/
theorem replayEvent_insert (H : String → Address) (tree : LeanIMT) (i : Nat)
    (e : weightChangeEvent) (w : Nat)
    (hp : strconv.ParseUint e.previousWeight = some 0)
    (hn : strconv.ParseUint e.newWeight = some w) (hw : 0 < w) :
    replayEvent H tree i e = .ok ⟨tree.nodes ++ [PackLeaf (H e.accountID) w]⟩ := by
  have hne := PackLeaf_ne_zero_of_pos (H e.accountID) w hw (strconv.ParseUint_lt _ _ hn)
  rw [replayEvent_parsed H tree i e 0 w hp hn, if_pos ⟨rfl, hw⟩,
    LeanIMT.Insert_of_ne_zero _ _ hne]

/-- A REMOVE or UPDATE event overwrites the slot that `IndexOf` returns for the old leaf. -/
theorem replayEvent_overwrite (H : String → Address) (tree : LeanIMT) (i : Nat)
    (e : weightChangeEvent) (p n k : Nat)
    (hp : strconv.ParseUint e.previousWeight = some p)
    (hn : strconv.ParseUint e.newWeight = some n) (hpos : 0 < p)
    (hk : tree.IndexOf (PackLeaf (H e.accountID) p) = (k : Int)) :
    replayEvent H tree i e =
      .ok ⟨tree.nodes.set k (if n = 0 then 0 else PackLeaf (H e.accountID) n)⟩ := by
  have hlt := (LeanIMT.IndexOf_natCast _ _ _ hk).1
  have hne : ¬ ((k : Int) = -1) := by omega
  have hp0 : ¬ (p = 0 ∧ n > 0) := by omega
  rw [replayEvent_parsed H tree i e p n hp hn, if_neg hp0, hk]
  by_cases h0 : n = 0
  · rw [if_pos ⟨h0, hpos⟩, if_neg hne, LeanIMT.Update_natCast _ _ _ hlt, if_pos h0]
  · have h1 : ¬ (n = 0 ∧ p > 0) := by omega
    have h2 : p > 0 ∧ n > 0 := by omega
    rw [if_neg h1, if_pos h2, if_neg hne, LeanIMT.Update_natCast _ _ _ hlt, if_neg h0]

/-- An event with both weights 0 leaves the tree as it is. -/
theorem replayEvent_zero_zero (H : String → Address) (tree : LeanIMT) (i : Nat)
    (e : weightChangeEvent)
    (hp : strconv.ParseUint e.previousWeight = some 0)
    (hn : strconv.ParseUint e.newWeight = some 0) :
    replayEvent H tree i e = .ok tree := by
  rw [replayEvent_parsed H tree i e 0 0 hp hn]
  simp

theorem replayLoop_cons_ok (H : String → Address) (tree tree1 : LeanIMT) (i : Nat)
    (e : weightChangeEvent) (rest : List weightChangeEvent)
    (h : replayEvent H tree i e = .ok tree1) :
    replayLoop H tree i (e :: rest) = replayLoop H tree1 (i + 1) rest := by
  simp only [replayLoop, h]

end census

/-! ## Event replay: claims -/

/-- C6: the insert/update/remove scenario.  For all addresses `A` and `B` (distinct or not),
replaying the four events `(A, 0 -> 5)`, `(A, 5 -> 8)`, `(B, 0 -> 3)`, `(A, 8 -> 0)` in that
order succeeds, the tree has size 2 with leaf `0` at index 0 and `PackLeaf B 3` at index 1,
and the returned root is the hash of the ordered pair `(0, PackLeaf B 3)`. -/
theorem census_scenario_insert_update_remove (H : String → Address) (hash : Int → Int → Int)
    (A B : Address) (e1 e2 e3 e4 : census.weightChangeEvent)
    (hA1 : H e1.accountID = A) (hA2 : H e2.accountID = A)
    (hB3 : H e3.accountID = B) (hA4 : H e4.accountID = A)
    (h1p : strconv.ParseUint e1.previousWeight = some 0)
    (h1n : strconv.ParseUint e1.newWeight = some 5)
    (h2p : strconv.ParseUint e2.previousWeight = some 5)
    (h2n : strconv.ParseUint e2.newWeight = some 8)
    (h3p : strconv.ParseUint e3.previousWeight = some 0)
    (h3n : strconv.ParseUint e3.newWeight = some 3)
    (h4p : strconv.ParseUint e4.previousWeight = some 8)
    (h4n : strconv.ParseUint e4.newWeight = some 0) :
    census.replayLoop H LeanIMT.New 0 [e1, e2, e3, e4]
      = .ok ⟨[0, census.PackLeaf B 3]⟩ ∧
    census.reconstructFromEvents H hash [e1, e2, e3, e4]
      = .ok (⟨[0, census.PackLeaf B 3]⟩, hash 0 (census.PackLeaf B 3)) ∧
    LeanIMT.Size ⟨[0, census.PackLeaf B 3]⟩ = 2 := by
  have s1 : census.replayEvent H LeanIMT.New 0 e1 = .ok ⟨[census.PackLeaf A 5]⟩ := by
    rw [census.replayEvent_insert H _ 0 e1 5 h1p h1n (by decide), hA1]
    rfl
  have i2 : LeanIMT.IndexOf ⟨[census.PackLeaf A 5]⟩ (census.PackLeaf (H e2.accountID) 5)
      = ((0 : Nat) : Int) := by
    rw [hA2]
    simp [LeanIMT.IndexOf]
  have s2 : census.replayEvent H ⟨[census.PackLeaf A 5]⟩ 1 e2 = .ok ⟨[census.PackLeaf A 8]⟩ := by
    rw [census.replayEvent_overwrite H _ 1 e2 5 8 0 h2p h2n (by decide) i2, hA2]
    rfl
  have s3 : census.replayEvent H ⟨[census.PackLeaf A 8]⟩ 2 e3
      = .ok ⟨[census.PackLeaf A 8, census.PackLeaf B 3]⟩ := by
    rw [census.replayEvent_insert H _ 2 e3 3 h3p h3n (by decide), hB3]
    rfl
  have i4 : LeanIMT.IndexOf ⟨[census.PackLeaf A 8, census.PackLeaf B 3]⟩
      (census.PackLeaf (H e4.accountID) 8) = ((0 : Nat) : Int) := by
    rw [hA4]
    simp [LeanIMT.IndexOf]
  have s4 : census.replayEvent H ⟨[census.PackLeaf A 8, census.PackLeaf B 3]⟩ 3 e4
      = .ok ⟨[0, census.PackLeaf B 3]⟩ := by
    rw [census.replayEvent_overwrite H _ 3 e4 8 0 0 h4p h4n (by decide) i4]
    rfl
  have hloop : census.replayLoop H LeanIMT.New 0 [e1, e2, e3, e4]
      = .ok ⟨[0, census.PackLeaf B 3]⟩ := by
    rw [census.replayLoop_cons_ok H _ _ 0 e1 _ s1, census.replayLoop_cons_ok H _ _ 1 e2 _ s2,
      census.replayLoop_cons_ok H _ _ 2 e3 _ s3, census.replayLoop_cons_ok H _ _ 3 e4 _ s4]
    rfl
  refine ⟨hloop, ?_, rfl⟩
  unfold census.reconstructFromEvents
  rw [if_neg (by simp), hloop]
  rfl

theorem census_scenario_insert_update_remove_witness :
    census.replayLoop hexToAddress LeanIMT.New 0
        [census.mkEvent "0x00000000000000000000000000000000000000aa" "0" "5",
         census.mkEvent "0x00000000000000000000000000000000000000aa" "5" "8",
         census.mkEvent "0x00000000000000000000000000000000000000bb" "0" "3",
         census.mkEvent "0x00000000000000000000000000000000000000aa" "8" "0"]
      = .ok ⟨[0, census.PackLeaf (hexToAddress "0x00000000000000000000000000000000000000bb") 3]⟩ ∧
    census.reconstructFromEvents hexToAddress sampleHash
        [census.mkEvent "0x00000000000000000000000000000000000000aa" "0" "5",
         census.mkEvent "0x00000000000000000000000000000000000000aa" "5" "8",
         census.mkEvent "0x00000000000000000000000000000000000000bb" "0" "3",
         census.mkEvent "0x00000000000000000000000000000000000000aa" "8" "0"]
      = .ok (⟨[0, census.PackLeaf (hexToAddress "0x00000000000000000000000000000000000000bb") 3]⟩,
          sampleHash 0
            (census.PackLeaf (hexToAddress "0x00000000000000000000000000000000000000bb") 3)) ∧
    LeanIMT.Size
      ⟨[0, census.PackLeaf (hexToAddress "0x00000000000000000000000000000000000000bb") 3]⟩ = 2 :=
  census_scenario_insert_update_remove hexToAddress sampleHash
    (hexToAddress "0x00000000000000000000000000000000000000aa")
    (hexToAddress "0x00000000000000000000000000000000000000bb")
    (census.mkEvent "0x00000000000000000000000000000000000000aa" "0" "5")
    (census.mkEvent "0x00000000000000000000000000000000000000aa" "5" "8")
    (census.mkEvent "0x00000000000000000000000000000000000000bb" "0" "3")
    (census.mkEvent "0x00000000000000000000000000000000000000aa" "8" "0")
    rfl rfl rfl rfl (by decide) (by decide) (by decide) (by decide) (by decide) (by decide)
    (by decide) (by decide)

/-- C7, as stated, fails: replaying `(0x..aa, 0 -> 5)` twice gives a tree that holds the leaf
`PackLeaf 0x..aa 5` at index 0 and at index 1.  The REMOVE event `(0x..aa, 5 -> 0)` then
overwrites index 0: index 1, which held the old leaf, does not hold 0 afterwards, and index 0,
another index, does not hold the leaf it held before. -/
theorem census_remove_overwrites_first_holder :
    census.replayLoop hexToAddress LeanIMT.New 0
        [census.mkEvent "0x00000000000000000000000000000000000000aa" "0" "5",
         census.mkEvent "0x00000000000000000000000000000000000000aa" "0" "5"]
      = .ok ⟨[census.PackLeaf (hexToAddress "0x00000000000000000000000000000000000000aa") 5,
          census.PackLeaf (hexToAddress "0x00000000000000000000000000000000000000aa") 5]⟩ ∧
    [census.PackLeaf (hexToAddress "0x00000000000000000000000000000000000000aa") 5,
        census.PackLeaf (hexToAddress "0x00000000000000000000000000000000000000aa") 5][1]?
      = some (census.PackLeaf (hexToAddress "0x00000000000000000000000000000000000000aa") 5) ∧
    census.replayEvent hexToAddress
        ⟨[census.PackLeaf (hexToAddress "0x00000000000000000000000000000000000000aa") 5,
          census.PackLeaf (hexToAddress "0x00000000000000000000000000000000000000aa") 5]⟩
        2 (census.mkEvent "0x00000000000000000000000000000000000000aa" "5" "0")
      = .ok ⟨[0,
          census.PackLeaf (hexToAddress "0x00000000000000000000000000000000000000aa") 5]⟩ ∧
    [0, census.PackLeaf (hexToAddress "0x00000000000000000000000000000000000000aa") 5][1]?
      ≠ some 0 ∧
    [0, census.PackLeaf (hexToAddress "0x00000000000000000000000000000000000000aa") 5][0]?
      ≠ [census.PackLeaf (hexToAddress "0x00000000000000000000000000000000000000aa") 5,
          census.PackLeaf (hexToAddress "0x00000000000000000000000000000000000000aa") 5][0]? := by
  decide

/-- C7, amended: tombstone index stability of a REMOVE event.  When the replay loop processes
an event with previousWeight `p > 0` and newWeight `0`, and the tree holds the old leaf
`PackLeaf identity p` at index `k` and at no lower index, the step succeeds and the resulting
tree has the same size, holds `0` at index `k` and holds at every other index the leaf it held
before. -/
theorem census_remove_tombstone_stability (H : String → Address) (tree : LeanIMT) (i : Nat)
    (e : census.weightChangeEvent) (p k : Nat)
    (hp : strconv.ParseUint e.previousWeight = some p)
    (hn : strconv.ParseUint e.newWeight = some 0) (hpos : 0 < p)
    (hheld : tree.nodes[k]? = some (census.PackLeaf (H e.accountID) p))
    (hfirst : ∀ j : Nat, j < k → tree.nodes[j]? ≠ some (census.PackLeaf (H e.accountID) p)) :
    ∃ tree1, census.replayEvent H tree i e = .ok tree1 ∧
      tree1.Size = tree.Size ∧ tree1.nodes[k]? = some 0 ∧
      ∀ j, j ≠ k → tree1.nodes[j]? = tree.nodes[j]? := by
  have hk := LeanIMT.IndexOf_of_first tree _ k hheld hfirst
  have hlt := (LeanIMT.IndexOf_natCast _ _ _ hk).1
  refine ⟨⟨tree.nodes.set k 0⟩, ?_, ?_, ?_, ?_⟩
  · rw [census.replayEvent_overwrite H tree i e p 0 k hp hn hpos hk, if_pos rfl]
  · simp [LeanIMT.Size]
  · simp [hlt]
  · intro j hj
    simp [List.getElem?_set, Ne.symm hj]

/-- C8: effect of an INSERT event.  When the replay loop processes an event with
previousWeight `0` and newWeight `w > 0` on a tree of size `n`, the insertion succeeds and the
resulting tree has size `n + 1`, holds `PackLeaf identity w` at index `n`, and every index
below `n` holds the leaf it held before. -/
theorem census_insert_effect (H : String → Address) (tree : LeanIMT) (i : Nat)
    (e : census.weightChangeEvent) (w : Nat)
    (hp : strconv.ParseUint e.previousWeight = some 0)
    (hn : strconv.ParseUint e.newWeight = some w) (hw : 0 < w) :
    ∃ tree1, census.replayEvent H tree i e = .ok tree1 ∧
      tree.Insert (census.PackLeaf (H e.accountID) w) = some tree1 ∧
      tree1.Size = tree.Size + 1 ∧
      tree1.nodes[tree.Size]? = some (census.PackLeaf (H e.accountID) w) ∧
      ∀ j, j < tree.Size → tree1.nodes[j]? = tree.nodes[j]? := by
  have hne := census.PackLeaf_ne_zero_of_pos (H e.accountID) w hw (strconv.ParseUint_lt _ _ hn)
  refine ⟨⟨tree.nodes ++ [census.PackLeaf (H e.accountID) w]⟩, ?_, ?_, ?_, ?_, ?_⟩
  · exact census.replayEvent_insert H tree i e w hp hn hw
  · exact LeanIMT.Insert_of_ne_zero _ _ hne
  · simp [LeanIMT.Size]
  · simp [LeanIMT.Size]
  · intro j hj
    simp only [LeanIMT.Size] at hj
    simp [List.getElem?_append_left hj]

/-- C9, as stated, fails: replaying `(0x..aa, 0 -> 5)` twice gives a tree that holds the leaf
`PackLeaf 0x..aa 5` at index 0 and at index 1.  The UPDATE event `(0x..aa, 5 -> 8)` then
overwrites index 0: index 1, which held the old leaf, does not hold the new leaf afterwards,
and index 0, another index, does not hold the leaf it held before. -/
theorem census_update_overwrites_first_holder :
    census.replayLoop hexToAddress LeanIMT.New 0
        [census.mkEvent "0x00000000000000000000000000000000000000aa" "0" "5",
         census.mkEvent "0x00000000000000000000000000000000000000aa" "0" "5",
         census.mkEvent "0x00000000000000000000000000000000000000aa" "5" "8"]
      = .ok ⟨[census.PackLeaf (hexToAddress "0x00000000000000000000000000000000000000aa") 8,
          census.PackLeaf (hexToAddress "0x00000000000000000000000000000000000000aa") 5]⟩ ∧
    [census.PackLeaf (hexToAddress "0x00000000000000000000000000000000000000aa") 5,
        census.PackLeaf (hexToAddress "0x00000000000000000000000000000000000000aa") 5][1]?
      = some (census.PackLeaf (hexToAddress "0x00000000000000000000000000000000000000aa") 5) ∧
    census.replayEvent hexToAddress
        ⟨[census.PackLeaf (hexToAddress "0x00000000000000000000000000000000000000aa") 5,
          census.PackLeaf (hexToAddress "0x00000000000000000000000000000000000000aa") 5]⟩
        2 (census.mkEvent "0x00000000000000000000000000000000000000aa" "5" "8")
      = .ok ⟨[census.PackLeaf (hexToAddress "0x00000000000000000000000000000000000000aa") 8,
          census.PackLeaf (hexToAddress "0x00000000000000000000000000000000000000aa") 5]⟩ ∧
    [census.PackLeaf (hexToAddress "0x00000000000000000000000000000000000000aa") 8,
        census.PackLeaf (hexToAddress "0x00000000000000000000000000000000000000aa") 5][1]?
      ≠ some (census.PackLeaf (hexToAddress "0x00000000000000000000000000000000000000aa") 8) ∧
    [census.PackLeaf (hexToAddress "0x00000000000000000000000000000000000000aa") 8,
        census.PackLeaf (hexToAddress "0x00000000000000000000000000000000000000aa") 5][0]?
      ≠ [census.PackLeaf (hexToAddress "0x00000000000000000000000000000000000000aa") 5,
          census.PackLeaf (hexToAddress "0x00000000000000000000000000000000000000aa") 5][0]? := by
  decide

/-- C9, amended: effect of an UPDATE event.  When the replay loop processes an event with
previousWeight `p > 0` and newWeight `n > 0`, and the tree holds the old leaf
`PackLeaf identity p` at index `k` and at no lower index, the step succeeds and the resulting
tree has the same size, holds `PackLeaf identity n` at index `k`, and every other index holds
the leaf it held before. -/
theorem census_update_effect (H : String → Address) (tree : LeanIMT) (i : Nat)
    (e : census.weightChangeEvent) (p n k : Nat)
    (hp : strconv.ParseUint e.previousWeight = some p)
    (hn : strconv.ParseUint e.newWeight = some n) (hpos : 0 < p) (hnpos : 0 < n)
    (hheld : tree.nodes[k]? = some (census.PackLeaf (H e.accountID) p))
    (hfirst : ∀ j : Nat, j < k → tree.nodes[j]? ≠ some (census.PackLeaf (H e.accountID) p)) :
    ∃ tree1, census.replayEvent H tree i e = .ok tree1 ∧
      tree1.Size = tree.Size ∧
      tree1.nodes[k]? = some (census.PackLeaf (H e.accountID) n) ∧
      ∀ j, j ≠ k → tree1.nodes[j]? = tree.nodes[j]? := by
  have hk := LeanIMT.IndexOf_of_first tree _ k hheld hfirst
  have hlt := (LeanIMT.IndexOf_natCast _ _ _ hk).1
  have hn0 : ¬ n = 0 := by omega
  refine ⟨⟨tree.nodes.set k (census.PackLeaf (H e.accountID) n)⟩, ?_, ?_, ?_, ?_⟩
  · rw [census.replayEvent_overwrite H tree i e p n k hp hn hpos hk, if_neg hn0]
  · simp [LeanIMT.Size]
  · simp [hlt]
  · intro j hj
    simp [List.getElem?_set, Ne.symm hj]

/-- C10, as stated, fails: the feed `(0x..01, 0 -> 5), (0x..01, 0 -> 0)` contains an event with
both weights 0, and `ReconstructTree` returns the one-leaf tree and its root, not an error. -/
theorem census_zero_zero_event_not_rejected :
    strconv.ParseUint
        (subgraph.mkEvent "0x0000000000000000000000000000000000000001" "0" "0").PreviousWeight
      = some 0 ∧
    strconv.ParseUint
        (subgraph.mkEvent "0x0000000000000000000000000000000000000001" "0" "0").NewWeight
      = some 0 ∧
    census.ReconstructTree
        (subgraph.singlePage
          [subgraph.mkEvent "0x0000000000000000000000000000000000000001" "0" "5",
           subgraph.mkEvent "0x0000000000000000000000000000000000000001" "0" "0"])
        hexToAddress sampleHash 1
      = some (.ok
          (⟨[census.PackLeaf (hexToAddress "0x0000000000000000000000000000000000000001") 5]⟩,
            census.PackLeaf (hexToAddress "0x0000000000000000000000000000000000000001") 5)) := by
  decide

/-- C10, amended: an event with previousWeight `0` and newWeight `0` is skipped silently.  The
replay loop raises no error for it, leaves the tree unchanged and goes on with the next
event. -/
theorem census_zero_zero_event_skipped (H : String → Address) (tree : LeanIMT) (i : Nat)
    (e : census.weightChangeEvent) (rest : List census.weightChangeEvent)
    (hp : strconv.ParseUint e.previousWeight = some 0)
    (hn : strconv.ParseUint e.newWeight = some 0) :
    census.replayEvent H tree i e = .ok tree ∧
    census.replayLoop H tree i (e :: rest) = census.replayLoop H tree (i + 1) rest := by
  have h := census.replayEvent_zero_zero H tree i e hp hn
  exact ⟨h, census.replayLoop_cons_ok H tree tree i e rest h⟩

theorem census_remove_tombstone_stability_witness :
    strconv.ParseUint "3" = some 3 ∧ strconv.ParseUint "0" = some 0 ∧ 0 < 3 ∧
    [census.PackLeaf (hexToAddress "0x00000000000000000000000000000000000000aa") 5,
        census.PackLeaf (hexToAddress "0x00000000000000000000000000000000000000bb") 3][1]?
      = some (census.PackLeaf (hexToAddress "0x00000000000000000000000000000000000000bb") 3) ∧
    [census.PackLeaf (hexToAddress "0x00000000000000000000000000000000000000aa") 5,
        census.PackLeaf (hexToAddress "0x00000000000000000000000000000000000000bb") 3][0]?
      ≠ some (census.PackLeaf (hexToAddress "0x00000000000000000000000000000000000000bb") 3) ∧
    ∃ tree1,
      census.replayEvent hexToAddress
          ⟨[census.PackLeaf (hexToAddress "0x00000000000000000000000000000000000000aa") 5,
            census.PackLeaf (hexToAddress "0x00000000000000000000000000000000000000bb") 3]⟩
          2 (census.mkEvent "0x00000000000000000000000000000000000000bb" "3" "0")
        = .ok tree1 ∧
      tree1.Size = 2 ∧ tree1.nodes[1]? = some 0 ∧
      ∀ j, j ≠ 1 → tree1.nodes[j]? =
        [census.PackLeaf (hexToAddress "0x00000000000000000000000000000000000000aa") 5,
          census.PackLeaf (hexToAddress "0x00000000000000000000000000000000000000bb") 3][j]? :=
  ⟨by decide, by decide, by decide, by decide, by decide,
    census_remove_tombstone_stability hexToAddress
      ⟨[census.PackLeaf (hexToAddress "0x00000000000000000000000000000000000000aa") 5,
        census.PackLeaf (hexToAddress "0x00000000000000000000000000000000000000bb") 3]⟩
      2 (census.mkEvent "0x00000000000000000000000000000000000000bb" "3" "0") 3 1
      (by decide) (by decide) (by decide) (by decide)
      (by
        intro j hj
        have hj0 : j = 0 := by omega
        subst hj0
        decide)⟩

theorem census_insert_effect_witness :
    strconv.ParseUint "0" = some 0 ∧ strconv.ParseUint "3" = some 3 ∧ 0 < 3 ∧
    ∃ tree1,
      census.replayEvent hexToAddress
          ⟨[census.PackLeaf (hexToAddress "0x00000000000000000000000000000000000000aa") 5]⟩
          1 (census.mkEvent "0x00000000000000000000000000000000000000bb" "0" "3")
        = .ok tree1 ∧
      LeanIMT.Insert
          ⟨[census.PackLeaf (hexToAddress "0x00000000000000000000000000000000000000aa") 5]⟩
          (census.PackLeaf (hexToAddress "0x00000000000000000000000000000000000000bb") 3)
        = some tree1 ∧
      tree1.Size = 1 + 1 ∧
      tree1.nodes[1]?
        = some (census.PackLeaf (hexToAddress "0x00000000000000000000000000000000000000bb") 3) ∧
      ∀ j, j < 1 → tree1.nodes[j]? =
        [census.PackLeaf (hexToAddress "0x00000000000000000000000000000000000000aa") 5][j]? :=
  ⟨by decide, by decide, by decide,
    census_insert_effect hexToAddress
      ⟨[census.PackLeaf (hexToAddress "0x00000000000000000000000000000000000000aa") 5]⟩
      1 (census.mkEvent "0x00000000000000000000000000000000000000bb" "0" "3") 3
      (by decide) (by decide) (by decide)⟩

theorem census_update_effect_witness :
    strconv.ParseUint "5" = some 5 ∧ strconv.ParseUint "8" = some 8 ∧ 0 < 5 ∧ 0 < 8 ∧
    [census.PackLeaf (hexToAddress "0x00000000000000000000000000000000000000bb") 3,
        census.PackLeaf (hexToAddress "0x00000000000000000000000000000000000000aa") 5][1]?
      = some (census.PackLeaf (hexToAddress "0x00000000000000000000000000000000000000aa") 5) ∧
    [census.PackLeaf (hexToAddress "0x00000000000000000000000000000000000000bb") 3,
        census.PackLeaf (hexToAddress "0x00000000000000000000000000000000000000aa") 5][0]?
      ≠ some (census.PackLeaf (hexToAddress "0x00000000000000000000000000000000000000aa") 5) ∧
    ∃ tree1,
      census.replayEvent hexToAddress
          ⟨[census.PackLeaf (hexToAddress "0x00000000000000000000000000000000000000bb") 3,
            census.PackLeaf (hexToAddress "0x00000000000000000000000000000000000000aa") 5]⟩
          2 (census.mkEvent "0x00000000000000000000000000000000000000aa" "5" "8")
        = .ok tree1 ∧
      tree1.Size = 2 ∧
      tree1.nodes[1]?
        = some (census.PackLeaf (hexToAddress "0x00000000000000000000000000000000000000aa") 8) ∧
      ∀ j, j ≠ 1 → tree1.nodes[j]? =
        [census.PackLeaf (hexToAddress "0x00000000000000000000000000000000000000bb") 3,
          census.PackLeaf (hexToAddress "0x00000000000000000000000000000000000000aa") 5][j]? :=
  ⟨by decide, by decide, by decide, by decide, by decide, by decide,
    census_update_effect hexToAddress
      ⟨[census.PackLeaf (hexToAddress "0x00000000000000000000000000000000000000bb") 3,
        census.PackLeaf (hexToAddress "0x00000000000000000000000000000000000000aa") 5]⟩
      2 (census.mkEvent "0x00000000000000000000000000000000000000aa" "5" "8") 5 8 1
      (by decide) (by decide) (by decide) (by decide) (by decide)
      (by
        intro j hj
        have hj0 : j = 0 := by omega
        subst hj0
        decide)⟩

theorem census_zero_zero_event_skipped_witness :
    strconv.ParseUint "0" = some 0 ∧
    census.replayEvent hexToAddress
        ⟨[census.PackLeaf (hexToAddress "0x00000000000000000000000000000000000000aa") 5]⟩
        1 (census.mkEvent "0x00000000000000000000000000000000000000bb" "0" "0")
      = .ok ⟨[census.PackLeaf (hexToAddress "0x00000000000000000000000000000000000000aa") 5]⟩ ∧
    census.replayLoop hexToAddress
        ⟨[census.PackLeaf (hexToAddress "0x00000000000000000000000000000000000000aa") 5]⟩
        1 [census.mkEvent "0x00000000000000000000000000000000000000bb" "0" "0",
           census.mkEvent "0x00000000000000000000000000000000000000aa" "5" "0"]
      = census.replayLoop hexToAddress
          ⟨[census.PackLeaf (hexToAddress "0x00000000000000000000000000000000000000aa") 5]⟩
          (1 + 1) [census.mkEvent "0x00000000000000000000000000000000000000aa" "5" "0"] :=
  ⟨by decide,
    census_zero_zero_event_skipped hexToAddress
      ⟨[census.PackLeaf (hexToAddress "0x00000000000000000000000000000000000000aa") 5]⟩
      1 (census.mkEvent "0x00000000000000000000000000000000000000bb" "0" "0")
      [census.mkEvent "0x00000000000000000000000000000000000000aa" "5" "0"]
      (by decide) (by decide)⟩

/-! ## Lemmas on the replay of a whole feed -/

namespace LeanIMT

theorem IndexOf_of_not_held (t : LeanIMT) (leaf : Int)
    (h : ∀ k : Nat, t.nodes[k]? ≠ some leaf) : t.IndexOf leaf = -1 := by
  have hmem : leaf ∉ t.nodes := by
    intro hm
    obtain ⟨k, hk⟩ := List.mem_iff_getElem?.mp hm
    exact h k hk
  have hidx : t.nodes.indexOf leaf = t.nodes.length := List.indexOf_of_not_mem hmem
  unfold IndexOf
  rw [hidx, if_neg (lt_irrefl _)]

end LeanIMT

namespace census

theorem replayLoop_error (H : String → Address) (tree : LeanIMT) (i : Nat)
    (e : weightChangeEvent) (rest : List weightChangeEvent) (err : ReconstructError)
    (h : replayEvent H tree i e = .error err) :
    replayLoop H tree i (e :: rest) = .error err := by
  simp only [replayLoop, h]

theorem replayLoop_append (H : String → Address) (pre rest : List weightChangeEvent) :
    ∀ (tree tree1 : LeanIMT) (i : Nat), replayLoop H tree i pre = .ok tree1 →
      replayLoop H tree i (pre ++ rest) = replayLoop H tree1 (i + pre.length) rest := by
  induction pre with
  | nil =>
    intro tree tree1 i h
    simp only [replayLoop, Except.ok.injEq] at h
    subst h
    simp
  | cons e pre ih =>
    intro tree tree1 i h
    simp only [replayLoop] at h
    cases hstep : replayEvent H tree i e with
    | error err => rw [hstep] at h; exact absurd h (by simp)
    | ok tree2 =>
      rw [hstep] at h
      simp only at h
      have hrec := ih tree2 tree1 (i + 1) h
      have hidx : i + (pre.length + 1) = i + 1 + pre.length := by omega
      simp only [List.cons_append, replayLoop, hstep, List.length_cons]
      rw [hidx]
      exact hrec

/-- A REMOVE or UPDATE event whose old leaf is not found aborts the replay. -/
theorem replayEvent_missing (H : String → Address) (tree : LeanIMT) (i : Nat)
    (e : weightChangeEvent) (p n : Nat)
    (hp : strconv.ParseUint e.previousWeight = some p)
    (hn : strconv.ParseUint e.newWeight = some n) (hpos : 0 < p)
    (hidx : tree.IndexOf (PackLeaf (H e.accountID) p) = -1) :
    replayEvent H tree i e =
      .error (if n = 0 then .removeLeafNotFound (H e.accountID) i
        else .updateLeafNotFound (H e.accountID) i) := by
  have hp0 : ¬ (p = 0 ∧ n > 0) := by omega
  rw [replayEvent_parsed H tree i e p n hp hn, if_neg hp0]
  by_cases h0 : n = 0
  · rw [if_pos ⟨h0, hpos⟩, if_pos hidx, if_pos h0]
  · have h1 : ¬ (n = 0 ∧ p > 0) := by omega
    have h2 : p > 0 ∧ n > 0 := by omega
    rw [if_neg h1, if_pos h2, if_pos hidx, if_neg h0]

/-- Once the paging loop has delivered the events, `ReconstructTree` is the replay of them. -/
theorem ReconstructTree_of_fetch
    (G : Nat → Nat → Except String (List subgraph.WeightChangeEvent))
    (H : String → Address) (hash : Int → Int → Int) (fuel : Nat)
    (allEvents : List weightChangeEvent)
    (h : fetchAllEvents G 1000 fuel 0 [] = some (.ok allEvents)) :
    ReconstructTree G H hash fuel = some (reconstructFromEvents H hash allEvents) := by
  simp only [ReconstructTree, h]

end census

/-! ## Reconstruction and validation: claims -/

/-- C11: a missing prior leaf is fatal.  When the replay reaches, after the events `pre`, a
REMOVE or UPDATE event (previousWeight `p > 0`) and no index of the tree holds
`PackLeaf identity p`, `census.ReconstructTree` returns the leaf-not-found error of that event,
whatever events `post` follow; an error result carries neither a tree nor a root. -/
theorem census_missing_prior_leaf_fatal
    (G : Nat → Nat → Except String (List subgraph.WeightChangeEvent))
    (H : String → Address) (hash : Int → Int → Int) (fuel : Nat)
    (pre post : List census.weightChangeEvent) (e : census.weightChangeEvent)
    (tree : LeanIMT) (p n : Nat)
    (hfetch : census.fetchAllEvents G 1000 fuel 0 [] = some (.ok (pre ++ e :: post)))
    (hpre : census.replayLoop H LeanIMT.New 0 pre = .ok tree)
    (hp : strconv.ParseUint e.previousWeight = some p)
    (hn : strconv.ParseUint e.newWeight = some n) (hpos : 0 < p)
    (hmiss : ∀ k : Nat, tree.nodes[k]? ≠ some (census.PackLeaf (H e.accountID) p)) :
    census.ReconstructTree G H hash fuel =
      some (.error (if n = 0 then .removeLeafNotFound (H e.accountID) pre.length
        else .updateLeafNotFound (H e.accountID) pre.length)) := by
  have hidx := LeanIMT.IndexOf_of_not_held tree _ hmiss
  have hstep := census.replayEvent_missing H tree (0 + pre.length) e p n hp hn hpos hidx
  rw [Nat.zero_add] at hstep
  have hloop := census.replayLoop_append H pre (e :: post) LeanIMT.New tree 0 hpre
  rw [Nat.zero_add, census.replayLoop_error H tree _ e post _ hstep] at hloop
  rw [census.ReconstructTree_of_fetch G H hash fuel _ hfetch]
  unfold census.reconstructFromEvents
  rw [if_neg (by simp), hloop]

theorem census_missing_prior_leaf_fatal_witness :
    census.ReconstructTree
        (subgraph.singlePage
          [subgraph.mkEvent "0x00000000000000000000000000000000000000aa" "0" "5",
           subgraph.mkEvent "0x00000000000000000000000000000000000000bb" "3" "0",
           subgraph.mkEvent "0x00000000000000000000000000000000000000cc" "0" "7"])
        hexToAddress sampleHash 1
      = some (.error (if 0 = 0
          then .removeLeafNotFound (hexToAddress "0x00000000000000000000000000000000000000bb")
            [census.mkEvent "0x00000000000000000000000000000000000000aa" "0" "5"].length
          else .updateLeafNotFound (hexToAddress "0x00000000000000000000000000000000000000bb")
            [census.mkEvent "0x00000000000000000000000000000000000000aa" "0" "5"].length)) :=
  census_missing_prior_leaf_fatal
    (subgraph.singlePage
      [subgraph.mkEvent "0x00000000000000000000000000000000000000aa" "0" "5",
       subgraph.mkEvent "0x00000000000000000000000000000000000000bb" "3" "0",
       subgraph.mkEvent "0x00000000000000000000000000000000000000cc" "0" "7"])
    hexToAddress sampleHash 1
    [census.mkEvent "0x00000000000000000000000000000000000000aa" "0" "5"]
    [census.mkEvent "0x00000000000000000000000000000000000000cc" "0" "7"]
    (census.mkEvent "0x00000000000000000000000000000000000000bb" "3" "0")
    ⟨[census.PackLeaf (hexToAddress "0x00000000000000000000000000000000000000aa") 5]⟩ 3 0
    (by decide) (by decide) (by decide) (by decide) (by decide)
    (by
      intro k
      match k with
      | 0 => decide
      | k + 1 => simp)

/-- C12: empty history.  When the first request to the event source returns no events,
`census.ReconstructTree` returns without error the fresh tree, of size 0, together with the
root value 0; one round of the paging loop suffices. -/
theorem census_empty_history
    (G : Nat → Nat → Except String (List subgraph.WeightChangeEvent))
    (H : String → Address) (hash : Int → Int → Int) (fuel : Nat)
    (hempty : G 1000 0 = .ok []) :
    census.ReconstructTree G H hash (fuel + 1) = some (.ok (LeanIMT.New, 0)) ∧
    LeanIMT.New.Size = 0 := by
  refine ⟨?_, rfl⟩
  simp [census.ReconstructTree, census.fetchAllEvents, hempty, census.reconstructFromEvents]

theorem census_empty_history_witness :
    subgraph.singlePage [] 1000 0 = .ok [] ∧
    census.ReconstructTree (subgraph.singlePage []) hexToAddress sampleHash (0 + 1)
      = some (.ok (LeanIMT.New, 0)) ∧
    LeanIMT.New.Size = 0 :=
  ⟨by decide, census_empty_history (subgraph.singlePage []) hexToAddress sampleHash 0 (by decide)⟩

/-- C13, as stated, fails: reconstructing from zero events returns the empty tree, and
`ValidateRoot` of that tree against the root 0 returns the error "tree has no root". -/
theorem census_ValidateRoot_empty_tree_rejected :
    census.ReconstructTree (subgraph.singlePage []) hexToAddress sampleHash 1
      = some (.ok (LeanIMT.New, 0)) ∧
    census.ValidateRoot sampleHash LeanIMT.New 0 = .error .treeHasNoRoot ∧
    census.ValidateError.treeHasNoRoot.text = "tree has no root" := by
  decide

/-- C13, amended: validating the empty tree fails.  For the empty tree (size 0, no root) and
every expected root, 0 included, `census.ValidateRoot` returns the error "tree has no
root", whatever the hash function. -/
theorem census_ValidateRoot_empty_tree (hash : Int → Int → Int) (expectedRoot : Int) :
    census.ValidateRoot hash LeanIMT.New expectedRoot = .error .treeHasNoRoot := by
  rfl

/-- C14: `census.ValidateRoot` fails exactly on a mismatch.  For every tree that has a root
`R` and every expected root `E`, `ValidateRoot tree E` returns no error if and only if
`R = E`; in particular `ValidateRoot tree (R + 1)` fails. -/
theorem census_ValidateRoot_ok_iff (hash : Int → Int → Int) (tree : LeanIMT) (R E : Int)
    (hR : tree.Root hash = some R) :
    (census.ValidateRoot hash tree E = .ok () ↔ R = E) ∧
    census.ValidateRoot hash tree (R + 1) = .error (.rootMismatch (R + 1) R) := by
  have key : ∀ X : Int, census.ValidateRoot hash tree X =
      if R ≠ X then .error (.rootMismatch X R) else .ok () := by
    intro X
    simp only [census.ValidateRoot, hR]
  constructor
  · rw [key E]
    by_cases h : R = E
    · simp [h]
    · simp [h]
  · rw [key (R + 1), if_pos (by omega)]

theorem census_ValidateRoot_ok_iff_witness :
    LeanIMT.Root sampleHash ⟨[3, 4]⟩ = some 168 ∧
    (census.ValidateRoot sampleHash ⟨[3, 4]⟩ 168 = .ok () ↔ (168 : Int) = 168) ∧
    census.ValidateRoot sampleHash ⟨[3, 4]⟩ (168 + 1) = .error (.rootMismatch (168 + 1) 168) :=
  ⟨by decide, census_ValidateRoot_ok_iff sampleHash ⟨[3, 4]⟩ 168 168 (by decide)⟩

/-! ## Lemmas on numerals -/

/-- Reading back the digits written by `Nat.toDigitsCore` gives the number. -/
theorem foldl_toDigitsCore (b : Nat) (hb : 2 ≤ b) (val : Char → Nat)
    (hval : ∀ k, k < b → val (Nat.digitChar k) = k) :
    ∀ (fuel n : Nat) (ds : List Char), n < fuel →
      (Nat.toDigitsCore b fuel n ds).foldl (fun acc c => acc * b + val c) 0
        = ds.foldl (fun acc c => acc * b + val c) n := by
  intro fuel
  induction fuel with
  | zero => intro n ds h; omega
  | succ fuel ih =>
    intro n ds h
    have hmod : n % b < b := Nat.mod_lt n (by omega)
    simp only [Nat.toDigitsCore]
    by_cases h0 : n / b = 0
    · rw [if_pos h0]
      have hn : n % b = n := by
        have := Nat.div_add_mod n b
        rw [h0] at this
        omega
      simp only [List.foldl_cons, Nat.zero_mul, Nat.zero_add]
      rw [hval _ hmod, hn]
    · rw [if_neg h0]
      have hlt : n / b < fuel := by
        have : n / b < n := Nat.div_lt_self (by
          rcases Nat.eq_zero_or_pos n with hz | hz
          · rw [hz] at h0; simp at h0
          · exact hz) (by omega)
        omega
      rw [ih (n / b) _ hlt]
      simp only [List.foldl_cons, hval _ hmod]
      have : n / b * b + n % b = n := by
        rw [Nat.mul_comm]; exact Nat.div_add_mod n b
      rw [this]

theorem foldl_toDigits (b : Nat) (hb : 2 ≤ b) (val : Char → Nat)
    (hval : ∀ k, k < b → val (Nat.digitChar k) = k) (n : Nat) :
    (Nat.toDigits b n).foldl (fun acc c => acc * b + val c) 0 = n := by
  unfold Nat.toDigits
  rw [foldl_toDigitsCore b hb val hval (n + 1) n [] (by omega)]
  rfl

theorem toDigitsCore_all_isDigit :
    ∀ (fuel n : Nat) (ds : List Char), ds.all Char.isDigit = true →
      (Nat.toDigitsCore 10 fuel n ds).all Char.isDigit = true := by
  intro fuel
  induction fuel with
  | zero => intro n ds h; simpa [Nat.toDigitsCore] using h
  | succ fuel ih =>
    intro n ds h
    have hmod : n % 10 < 10 := Nat.mod_lt n (by decide)
    have hd : (Nat.digitChar (n % 10)).isDigit = true := by
      have hall : ∀ k, k < 10 → (Nat.digitChar k).isDigit = true := by decide
      exact hall _ hmod
    have hcons : (Nat.digitChar (n % 10) :: ds).all Char.isDigit = true := by
      simp only [List.all_cons, hd, h, Bool.and_self]
    simp only [Nat.toDigitsCore]
    split
    · exact hcons
    · exact ih _ _ hcons

theorem toDigitsCore_ne_nil (b : Nat) :
    ∀ (fuel n : Nat) (ds : List Char), 0 < fuel → Nat.toDigitsCore b fuel n ds ≠ [] := by
  intro fuel
  induction fuel with
  | zero => intro n ds h; omega
  | succ fuel ih =>
    intro n ds _
    simp only [Nat.toDigitsCore]
    split
    · simp
    · cases fuel with
      | zero => simp [Nat.toDigitsCore]
      | succ fuel => exact ih _ _ (by omega)

/-- `strconv.ParseUint` on the decimal numeral of `n`: the value for `n < 2^64`, an error
otherwise. -/
theorem strconv.ParseUint_toString (n : Nat) :
    strconv.ParseUint (toString n) = if n < 2 ^ 64 then some n else none := by
  have hdata : (toString n).data = Nat.toDigits 10 n := rfl
  have hne : (Nat.toDigits 10 n).isEmpty = false := by
    have := toDigitsCore_ne_nil 10 (n + 1) n [] (by omega)
    unfold Nat.toDigits
    cases hc : Nat.toDigitsCore 10 (n + 1) n [] with
    | nil => exact absurd hc this
    | cons c cs => rfl
  have hall : (Nat.toDigits 10 n).all Char.isDigit = true :=
    toDigitsCore_all_isDigit (n + 1) n [] rfl
  have hval : (Nat.toDigits 10 n).foldl (fun acc c => acc * 10 + (c.toNat - 48)) 0 = n :=
    foldl_toDigits 10 (by decide) (fun c => c.toNat - 48) (by decide) n
  unfold strconv.ParseUint
  rw [hdata, hne, hall]
  simp only [Bool.false_eq_true, if_false, if_true, hval]

/-- The hexadecimal digits written by `%x` read back as the number. -/
theorem hexValue_formatHex (n : Nat) : hexValue (census.formatHex (Int.ofNat n)) = n := by
  simp only [census.formatHex, hexValue]
  exact foldl_toDigits 16 (by decide) (fun c => (hexDigit c).getD 0) (by decide) n

/-! ## Lemmas on the paging loop -/

namespace census

/-- The paging loop on a source that never fails: `k` full pages from offset `1000 * s` on,
followed by a page with fewer than 1000 events, are concatenated in order, and the loop stops
after the short page. -/
theorem fetchAllEvents_pages (page : Nat → List subgraph.WeightChangeEvent) :
    ∀ (k fuel s : Nat) (acc : List weightChangeEvent), k < fuel →
      (∀ j, j < k → 1000 ≤ (page (1000 * (s + j))).length) →
      (page (1000 * (s + k))).length < 1000 →
      fetchAllEvents (fun _ skip => .ok (page skip)) 1000 fuel (1000 * s) acc
        = some (.ok (acc ++
            ((List.range (k + 1)).map fun j => (page (1000 * (s + j))).map toInternal).flatten)) := by
  intro k
  induction k with
  | zero =>
    intro fuel s acc hfuel _ hshort
    obtain ⟨f, rfl⟩ : ∃ f, fuel = f + 1 := ⟨fuel - 1, by omega⟩
    simp only [Nat.add_zero] at hshort
    have hr : List.range (0 + 1) = [0] := rfl
    simp only [fetchAllEvents, hshort, if_true, hr, List.map_cons, List.map_nil,
      List.flatten_cons, List.flatten_nil, Nat.add_zero, List.append_nil]
    by_cases h0 : (page (1000 * s)).length = 0
    · rw [if_pos h0]
      have : page (1000 * s) = [] := List.length_eq_zero.mp h0
      simp [this]
    · rw [if_neg h0]
  | succ k ih =>
    intro fuel s acc hfuel hfull hshort
    obtain ⟨f, rfl⟩ : ∃ f, fuel = f + 1 := ⟨fuel - 1, by omega⟩
    have h0 := hfull 0 (by omega)
    simp only [Nat.add_zero] at h0
    have hne : ¬ (page (1000 * s)).length = 0 := by omega
    have hfl : ¬ (page (1000 * s)).length < 1000 := by omega
    have hskip : 1000 * s + 1000 = 1000 * (s + 1) := by ring
    have hrec := ih f (s + 1) (acc ++ (page (1000 * s)).map toInternal) (by omega)
      (by
        intro j hj
        have := hfull (j + 1) (by omega)
        rwa [show s + (j + 1) = s + 1 + j by omega] at this)
      (by rwa [show s + (k + 1) = s + 1 + k by omega] at hshort)
    have hfun : (fun j => (page (1000 * (s + 1 + j))).map toInternal)
        = (fun j => (page (1000 * (s + j))).map toInternal) ∘ Nat.succ := by
      funext j
      simp only [Function.comp, Nat.succ_eq_add_one]
      rw [show s + 1 + j = s + (j + 1) by omega]
    simp only [fetchAllEvents, if_neg hne, if_neg hfl, hskip, hrec]
    rw [List.range_succ_eq_map (k + 1), hfun]
    simp only [List.map_cons, List.map_map, List.flatten_cons, Nat.add_zero, List.append_assoc]

end census

/-! ## Validation message, paging and weight domain: claims -/

/-- C15: the mismatch error carries both roots.  For every tree with non-negative root `R`
and every non-negative expected root `E` different from `R`, the error of
`census.ValidateRoot` has the text `root mismatch: expected 0x<hex of E>, got 0x<hex of R>`,
and the two hexadecimal numerals in it read back as `E` and `R`. -/
theorem census_ValidateRoot_mismatch_text (hash : Int → Int → Int) (tree : LeanIMT)
    (R E : Nat) (hR : tree.Root hash = some (Int.ofNat R)) (hne : E ≠ R) :
    ∃ err, census.ValidateRoot hash tree (Int.ofNat E) = .error err ∧
      err.text = "root mismatch: expected 0x" ++ census.formatHex (Int.ofNat E)
        ++ ", got 0x" ++ census.formatHex (Int.ofNat R) ∧
      hexValue (census.formatHex (Int.ofNat E)) = E ∧
      hexValue (census.formatHex (Int.ofNat R)) = R := by
  have hneq : Int.ofNat R ≠ Int.ofNat E := by
    intro h
    exact hne (Int.ofNat.inj h).symm
  refine ⟨.rootMismatch (Int.ofNat E) (Int.ofNat R), ?_, rfl, hexValue_formatHex E,
    hexValue_formatHex R⟩
  simp only [census.ValidateRoot, hR, if_pos hneq]

theorem census_ValidateRoot_mismatch_text_witness :
    (census.ValidateError.rootMismatch 169 168).text
      = "root mismatch: expected 0xa9, got 0xa8" ∧
    ∃ err, census.ValidateRoot sampleHash ⟨[3, 4]⟩ (Int.ofNat 169) = .error err ∧
      err.text = "root mismatch: expected 0x" ++ census.formatHex (Int.ofNat 169)
        ++ ", got 0x" ++ census.formatHex (Int.ofNat 168) ∧
      hexValue (census.formatHex (Int.ofNat 169)) = 169 ∧
      hexValue (census.formatHex (Int.ofNat 168)) = 168 :=
  ⟨by decide,
    census_ValidateRoot_mismatch_text sampleHash ⟨[3, 4]⟩ 168 169 (by decide) (by decide)⟩

/-- C16: proof shape for three leaves.  For every leaf list `[l0, l1, l2]` and every hash
function that does not fail, `generateLeanIMTProof leaves 2` returns exactly `[hash l0 l1]`:
level 0 contributes no entry (index 2 is the unpaired last node, passed up unhashed) and
level 1 contributes the hash of the first two leaves. -/
theorem merkle_proof_shape_three_leaves (h : Int → Int → Int) (l0 l1 l2 : Int) :
    merkle.generateLeanIMTProof (merkle.okHash h) [l0, l1, l2] 2 = .ok [h l0 l1] ∧
    merkle.refLevel h [l0, l1, l2] 1 = [h l0 l1, l2] ∧
    merkle.refEntry h [l0, l1, l2] 2 0 = none ∧
    merkle.refEntry h [l0, l1, l2] 2 1 = some (h l0 l1) := by
  exact ⟨rfl, rfl, rfl, rfl⟩

/-- C18: odd-level pass-through at size 1.  For every address and every weight `w > 0`,
replaying the single event `(a, 0 -> w)` yields a tree of size 1 whose root is the leaf
`PackLeaf a w` itself, whatever the hash function, and the proof for index 0 of a one-leaf list
is the empty list, whatever the hasher. -/
theorem census_single_leaf_root (H : String → Address) (hash : Int → Int → Int)
    (e : census.weightChangeEvent) (w : Nat)
    (hp : strconv.ParseUint e.previousWeight = some 0)
    (hn : strconv.ParseUint e.newWeight = some w) (hw : 0 < w) :
    census.reconstructFromEvents H hash [e]
      = .ok (⟨[census.PackLeaf (H e.accountID) w]⟩, census.PackLeaf (H e.accountID) w) ∧
    LeanIMT.Size ⟨[census.PackLeaf (H e.accountID) w]⟩ = 1 ∧
    LeanIMT.Root hash ⟨[census.PackLeaf (H e.accountID) w]⟩
      = some (census.PackLeaf (H e.accountID) w) ∧
    ∀ (phash : Int → Int → Except String Int) (leaf : Int),
      merkle.generateLeanIMTProof phash [leaf] 0 = .ok [] := by
  have hstep := census.replayEvent_insert H LeanIMT.New 0 e w hp hn hw
  have hloop : census.replayLoop H LeanIMT.New 0 [e]
      = .ok ⟨[census.PackLeaf (H e.accountID) w]⟩ := by
    rw [census.replayLoop_cons_ok H _ _ 0 e [] hstep]
    rfl
  refine ⟨?_, rfl, rfl, fun _ _ => rfl⟩
  unfold census.reconstructFromEvents
  rw [if_neg (by simp), hloop]
  rfl

theorem census_single_leaf_root_witness :
    census.reconstructFromEvents hexToAddress sampleHash
        [census.mkEvent "0x00000000000000000000000000000000000000aa" "0" "5"]
      = .ok (⟨[census.PackLeaf (hexToAddress "0x00000000000000000000000000000000000000aa") 5]⟩,
          census.PackLeaf (hexToAddress "0x00000000000000000000000000000000000000aa") 5) ∧
    LeanIMT.Size
      ⟨[census.PackLeaf (hexToAddress "0x00000000000000000000000000000000000000aa") 5]⟩ = 1 ∧
    LeanIMT.Root sampleHash
        ⟨[census.PackLeaf (hexToAddress "0x00000000000000000000000000000000000000aa") 5]⟩
      = some (census.PackLeaf (hexToAddress "0x00000000000000000000000000000000000000aa") 5) ∧
    ∀ (phash : Int → Int → Except String Int) (leaf : Int),
      merkle.generateLeanIMTProof phash [leaf] 0 = .ok [] :=
  census_single_leaf_root hexToAddress sampleHash
    (census.mkEvent "0x00000000000000000000000000000000000000aa" "0" "5") 5
    (by decide) (by decide) (by decide)

/-- C19, as stated, fails: the source `sparsePages` returns the empty page at offset 2000, so
the pages before the first empty page hold two events, but the paging loop stops after the
short page at offset 0 and only the first event is replayed. -/
theorem census_paging_stops_at_short_page :
    subgraph.sparsePages 1000 2000 = .ok [] ∧
    census.fetchAllEvents subgraph.sparsePages 1000 3 0 []
      = some (.ok [census.mkEvent "0x00000000000000000000000000000000000000aa" "0" "5"]) ∧
    census.fetchAllEvents subgraph.sparsePages 1000 3 0 []
      ≠ some (.ok [census.mkEvent "0x00000000000000000000000000000000000000aa" "0" "5",
          census.mkEvent "0x00000000000000000000000000000000000000bb" "0" "3"]) ∧
    census.ReconstructTree subgraph.sparsePages hexToAddress sampleHash 3
      = some (.ok
          (⟨[census.PackLeaf (hexToAddress "0x00000000000000000000000000000000000000aa") 5]⟩,
            census.PackLeaf (hexToAddress "0x00000000000000000000000000000000000000aa") 5)) := by
  decide

/-- C19, amended: paging runs until a page with fewer than 1000 events.  For every source
(a function from offset to page) whose pages at offsets `0, 1000, ..., 1000 * (k - 1)` hold
at least 1000 events and whose page at offset `1000 * k` holds fewer (an empty page
included), the paging loop ends within `k + 1` requests and the events that
`census.ReconstructTree` replays are the in-order concatenation of the pages at offsets
`0, 1000, ..., 1000 * k`, without re-sorting. -/
theorem census_paging_until_short_page (page : Nat → List subgraph.WeightChangeEvent)
    (H : String → Address) (hash : Int → Int → Int) (k fuel : Nat) (hfuel : k < fuel)
    (hfull : ∀ j, j < k → 1000 ≤ (page (1000 * j)).length)
    (hshort : (page (1000 * k)).length < 1000) :
    census.fetchAllEvents (fun _ skip => .ok (page skip)) 1000 fuel 0 []
      = some (.ok
          ((List.range (k + 1)).map fun j => (page (1000 * j)).map census.toInternal).flatten) ∧
    census.ReconstructTree (fun _ skip => .ok (page skip)) H hash fuel
      = some (census.reconstructFromEvents H hash
          ((List.range (k + 1)).map fun j => (page (1000 * j)).map census.toInternal).flatten) := by
  have h := census.fetchAllEvents_pages page k fuel 0 [] hfuel
    (by intro j hj; rw [Nat.zero_add]; exact hfull j hj)
    (by rw [Nat.zero_add]; exact hshort)
  simp only [Nat.mul_zero, Nat.zero_add, List.nil_append] at h
  exact ⟨h, census.ReconstructTree_of_fetch _ H hash fuel _ h⟩

theorem census_paging_until_short_page_witness :
    census.fetchAllEvents (fun _ skip => .ok (subgraph.fullThenShort skip)) 1000 2 0 []
      = some (.ok
          ((List.range (1 + 1)).map fun j =>
            (subgraph.fullThenShort (1000 * j)).map census.toInternal).flatten) ∧
    census.ReconstructTree (fun _ skip => .ok (subgraph.fullThenShort skip)) hexToAddress
        sampleHash 2
      = some (census.reconstructFromEvents hexToAddress sampleHash
          ((List.range (1 + 1)).map fun j =>
            (subgraph.fullThenShort (1000 * j)).map census.toInternal).flatten) :=
  census_paging_until_short_page subgraph.fullThenShort hexToAddress sampleHash 1 2 (by decide)
    (by
      intro j hj
      have hj0 : j = 0 := by omega
      subst hj0
      have hpage : subgraph.fullThenShort (1000 * 0) = List.replicate 1000
          (subgraph.mkEvent "0x00000000000000000000000000000000000000aa" "0" "5") := rfl
      rw [hpage, List.length_replicate])
    (by decide)

/-- C20, as stated, fails: the weight `18446744073709551616 = 2^64` is below `2^88`, and
`census.ReconstructTree` rejects the event that carries it with the invalid-newWeight
error. -/
theorem census_weight_2_64_rejected :
    (18446744073709551616 : Nat) < 2 ^ 88 ∧
    toString (18446744073709551616 : Nat) = "18446744073709551616" ∧
    census.ReconstructTree
        (subgraph.singlePage
          [subgraph.mkEvent "0x00000000000000000000000000000000000000aa" "0"
            "18446744073709551616"])
        hexToAddress sampleHash 1
      = some (.error (.invalidNewWeight 0)) := by
  decide

/-- C20, amended: the weight domain of the tool is 64 bits.  For every event whose
previousWeight and newWeight are the decimal numerals of `p` and `n`: if both are below `2^64`
the replay step returns no invalid-weight error; if `p` is `2^64` or more it returns the
invalid-previousWeight error; if `p` is below `2^64` and `n` is `2^64` or more it returns the
invalid-newWeight error. -/
theorem census_weight_domain_uint64 (H : String → Address) (tree : LeanIMT) (i : Nat)
    (e : census.weightChangeEvent) (p n : Nat)
    (hp : e.previousWeight = toString p) (hn : e.newWeight = toString n) :
    (p < 2 ^ 64 → n < 2 ^ 64 → ∀ j,
      census.replayEvent H tree i e ≠ .error (.invalidPreviousWeight j) ∧
      census.replayEvent H tree i e ≠ .error (.invalidNewWeight j)) ∧
    (2 ^ 64 ≤ p → census.replayEvent H tree i e = .error (.invalidPreviousWeight i)) ∧
    (p < 2 ^ 64 → 2 ^ 64 ≤ n →
      census.replayEvent H tree i e = .error (.invalidNewWeight i)) := by
  have hpp := strconv.ParseUint_toString p
  have hnn := strconv.ParseUint_toString n
  rw [← hp] at hpp
  rw [← hn] at hnn
  refine ⟨?_, ?_, ?_⟩
  · intro hp64 hn64 j
    rw [if_pos hp64] at hpp
    rw [if_pos hn64] at hnn
    rw [census.replayEvent_parsed H tree i e p n hpp hnn]
    constructor <;> (split_ifs <;> (try split) <;> simp)
  · intro hp64
    rw [if_neg (by omega)] at hpp
    simp only [census.replayEvent, hpp]
  · intro hp64 hn64
    rw [if_pos hp64] at hpp
    rw [if_neg (by omega)] at hnn
    simp only [census.replayEvent, hpp, hnn]

theorem census_weight_domain_uint64_witness :
    (18446744073709551615 < 2 ^ 64 → 5 < 2 ^ 64 → ∀ j,
      census.replayEvent hexToAddress LeanIMT.New 0
          (census.mkEvent "0x00000000000000000000000000000000000000aa"
            (toString 18446744073709551615) (toString 5))
        ≠ .error (.invalidPreviousWeight j) ∧
      census.replayEvent hexToAddress LeanIMT.New 0
          (census.mkEvent "0x00000000000000000000000000000000000000aa"
            (toString 18446744073709551615) (toString 5))
        ≠ .error (.invalidNewWeight j)) ∧
    (2 ^ 64 ≤ 18446744073709551615 →
      census.replayEvent hexToAddress LeanIMT.New 0
          (census.mkEvent "0x00000000000000000000000000000000000000aa"
            (toString 18446744073709551615) (toString 5))
        = .error (.invalidPreviousWeight 0)) ∧
    (18446744073709551615 < 2 ^ 64 → 2 ^ 64 ≤ 5 →
      census.replayEvent hexToAddress LeanIMT.New 0
          (census.mkEvent "0x00000000000000000000000000000000000000aa"
            (toString 18446744073709551615) (toString 5))
        = .error (.invalidNewWeight 0)) :=
  census_weight_domain_uint64 hexToAddress LeanIMT.New 0
    (census.mkEvent "0x00000000000000000000000000000000000000aa"
      (toString 18446744073709551615) (toString 5))
    18446744073709551615 5 rfl rfl

/-! ## Lemmas on proof generation -/

namespace LeanIMT

theorem hashLevel_length (h : Int → Int → Int) :
    ∀ (n : Nat) (l : List Int), l.length ≤ n → (hashLevel h l).length = (l.length + 1) / 2 := by
  intro n
  induction n using Nat.strong_induction_on with
  | _ n ih =>
    intro l hl
    match l with
    | [] => rfl
    | [a] => simp [hashLevel]
    | a :: b :: rest =>
      simp only [hashLevel, List.length_cons]
      have := ih (n - 2) (by simp only [List.length_cons] at hl; omega) rest
        (by simp only [List.length_cons] at hl; omega)
      omega

theorem hashLevel_of_short (h : Int → Int → Int) (l : List Int) (hl : l.length ≤ 1) :
    hashLevel h l = l := by
  match l with
  | [] => rfl
  | [a] => rfl
  | a :: b :: rest => simp only [List.length_cons] at hl; omega

end LeanIMT

namespace merkle

/-- With a hash that never fails, "Build next level" builds the next reference level. -/
theorem buildNextLevel_okHash (h : Int → Int → Int) :
    ∀ (n : Nat) (l : List Int), l.length ≤ n →
      buildNextLevel (okHash h) l = .ok (LeanIMT.hashLevel h l) := by
  intro n
  induction n using Nat.strong_induction_on with
  | _ n ih =>
    intro l hl
    match l with
    | [] => rfl
    | [a] => rfl
    | a :: b :: rest =>
      have hrest := ih (n - 2) (by simp only [List.length_cons] at hl; omega) rest
        (by simp only [List.length_cons] at hl; omega)
      simp only [buildNextLevel, okHash, LeanIMT.hashLevel] at hrest ⊢
      rw [hrest]

/-- The sibling index of the loop is the index with the lowest bit flipped. -/
theorem xor_one_eq (i : Nat) : i ^^^ 1 = if i % 2 = 0 then i + 1 else i - 1 := by
  have hdiv : (i ^^^ 1) / 2 = i / 2 := by
    rw [Nat.xor_div_two]
    simp
  have hmod : (i ^^^ 1) % 2 = (i + 1) % 2 := Nat.xor_mod_two_eq
  split <;> omega

theorem refLevel_hashLevel (h : Int → Int → Int) (l : List Int) (k : Nat) :
    refLevel h (LeanIMT.hashLevel h l) k = refLevel h l (k + 1) := by
  induction k with
  | zero => rfl
  | succ k ih =>
    show LeanIMT.hashLevel h (refLevel h (LeanIMT.hashLevel h l) k) = _
    rw [ih]
    rfl

theorem refLevel_of_short (h : Int → Int → Int) (l : List Int) (hl : l.length ≤ 1) (k : Nat) :
    refLevel h l k = l := by
  induction k with
  | zero => rfl
  | succ k ih =>
    show LeanIMT.hashLevel h (refLevel h l k) = l
    rw [ih, LeanIMT.hashLevel_of_short h l hl]

theorem refEntry_succ (h : Int → Int → Int) (l : List Int) (i k : Nat) :
    refEntry h l i (k + 1) = refEntry h (LeanIMT.hashLevel h l) (i / 2) k := by
  have hdiv : i / 2 ^ (k + 1) = i / 2 / 2 ^ k := by
    rw [Nat.div_div_eq_div_mul, pow_succ, Nat.mul_comm]
  simp only [refEntry, refLevel_hashLevel, hdiv]

theorem refPathUpTo_succ (h : Int → Int → Int) (l : List Int) (i m : Nat) :
    refPathUpTo h l i (m + 1)
      = (refEntry h l i 0).toList ++ refPathUpTo h (LeanIMT.hashLevel h l) (i / 2) m := by
  have hfun : refEntry h l i ∘ Nat.succ = refEntry h (LeanIMT.hashLevel h l) (i / 2) := by
    funext k
    exact refEntry_succ h l i k
  simp only [refPathUpTo, List.range_succ_eq_map, List.filterMap_cons, List.filterMap_map, hfun]
  cases refEntry h l i 0 <;> rfl

theorem refPathUpTo_of_short (h : Int → Int → Int) (l : List Int) (hl : l.length ≤ 1)
    (i m : Nat) : refPathUpTo h l i m = [] := by
  have hnone : ∀ k, refEntry h l i k = none := by
    intro k
    simp only [refEntry, refLevel_of_short h l hl k]
    rw [if_neg (by omega)]
  simp [refPathUpTo, hnone]

/-- The loop of `generateLeanIMTProof` with a hash that never fails appends the reference
entries of the levels, as long as the fuel covers the length of the level. -/
theorem proofLoop_okHash (h : Int → Int → Int) :
    ∀ (fuel : Nat) (level : List Int) (i : Nat) (acc : List Int), level.length ≤ fuel →
      proofLoop (okHash h) fuel level i acc = .ok (acc ++ refPathUpTo h level i fuel) := by
  intro fuel
  induction fuel with
  | zero =>
    intro level i acc _
    simp [proofLoop, refPathUpTo]
  | succ fuel ih =>
    intro level i acc hlen
    by_cases hgt : level.length > 1
    · have hnext : (LeanIMT.hashLevel h level).length ≤ fuel := by
        rw [LeanIMT.hashLevel_length h _ level le_rfl]
        omega
      have hentry : refEntry h level i 0 = level[i ^^^ 1]? := by
        simp only [refEntry, refLevel, pow_zero, Nat.div_one]
        rw [if_pos hgt]
      simp only [proofLoop, if_pos hgt, buildNextLevel_okHash h _ level le_rfl]
      rw [ih _ _ _ hnext, refPathUpTo_succ, hentry, xor_one_eq]
      by_cases hs : (if i % 2 = 0 then i + 1 else i - 1) < level.length
      · rw [dif_pos hs, List.getElem?_eq_getElem hs]
        simp
      · rw [dif_neg hs, List.getElem?_eq_none (by omega)]
        simp
    · have hshort : level.length ≤ 1 := by omega
      simp only [proofLoop, if_neg hgt, refPathUpTo_of_short h level hshort, List.append_nil]

/-- The length of the reference level `k` is at most `n - k`, and at most 1 from level
`n` on. -/
theorem refLevel_length_le (h : Int → Int → Int) (leaves : List Int) (k : Nat) :
    (refLevel h leaves k).length ≤ max 1 (leaves.length - k) := by
  induction k with
  | zero => simp [refLevel]
  | succ k ih =>
    show (LeanIMT.hashLevel h (refLevel h leaves k)).length ≤ _
    rw [LeanIMT.hashLevel_length h _ _ le_rfl]
    omega

end merkle

/-! ## Proof generation: claims -/

/-- C17: `generateLeanIMTProof` equals the reference sibling path.  For every leaf list and
every index `i` below its length, with a hash that does not fail: let `L_0` be the leaves,
`L_(k+1)` the level obtained from `L_k` by hashing adjacent pairs and copying an unpaired last
element, and `p_k = i / 2^k`.  The returned list consists, in increasing order of `k` over the
levels with `|L_k| > 1`, of the elements `L_k[p_k xor 1]` of the levels where
`p_k xor 1 < |L_k|`.  No level from `leaves.length` on has more than one node, and a level of
odd length whose last element is `p_k` has no entry. -/
theorem merkle_proof_eq_reference (h : Int → Int → Int) (leaves : List Int) (i : Nat)
    (hi : i < leaves.length) :
    merkle.generateLeanIMTProof (merkle.okHash h) leaves i
      = .ok ((List.range leaves.length).filterMap fun k =>
          if (merkle.refLevel h leaves k).length > 1
          then (merkle.refLevel h leaves k)[(i / 2 ^ k) ^^^ 1]? else none) ∧
    (∀ k, leaves.length ≤ k → (merkle.refLevel h leaves k).length ≤ 1) ∧
    (∀ k, (merkle.refLevel h leaves k).length % 2 = 1 →
      i / 2 ^ k + 1 = (merkle.refLevel h leaves k).length →
      merkle.refEntry h leaves i k = none) := by
  refine ⟨?_, ?_, ?_⟩
  · have hloop := merkle.proofLoop_okHash h leaves.length leaves i [] le_rfl
    unfold merkle.generateLeanIMTProof
    rw [if_neg (by omega), hloop]
    rfl
  · intro k hk
    have := merkle.refLevel_length_le h leaves k
    omega
  · intro k hodd hlast
    unfold merkle.refEntry
    split
    · rw [merkle.xor_one_eq]
      have heven : (i / 2 ^ k) % 2 = 0 := by omega
      rw [if_pos heven]
      exact List.getElem?_eq_none (by omega)
    · rfl

theorem merkle_proof_eq_reference_witness :
    merkle.generateLeanIMTProof (merkle.okHash sampleHash) [1, 2, 3, 4, 5] 2
      = .ok [4, sampleHash 1 2, 5] ∧
    merkle.generateLeanIMTProof (merkle.okHash sampleHash) [1, 2, 3, 4, 5] 2
      = .ok ((List.range [(1 : Int), 2, 3, 4, 5].length).filterMap fun k =>
          if (merkle.refLevel sampleHash [1, 2, 3, 4, 5] k).length > 1
          then (merkle.refLevel sampleHash [1, 2, 3, 4, 5] k)[(2 / 2 ^ k) ^^^ 1]? else none) ∧
    (∀ k, [(1 : Int), 2, 3, 4, 5].length ≤ k →
      (merkle.refLevel sampleHash [1, 2, 3, 4, 5] k).length ≤ 1) ∧
    (∀ k, (merkle.refLevel sampleHash [1, 2, 3, 4, 5] k).length % 2 = 1 →
      2 / 2 ^ k + 1 = (merkle.refLevel sampleHash [1, 2, 3, 4, 5] k).length →
      merkle.refEntry sampleHash [1, 2, 3, 4, 5] 2 k = none) :=
  ⟨by decide, merkle_proof_eq_reference sampleHash [1, 2, 3, 4, 5] 2 (by decide)⟩

/-! ## Delegation tool, query and confirmations: claims -/

/-- C21: proof for an absent address.  For every tree `t` and every address `a` that is the
address of no node in `t.Nodes`, `t.GenerateProof a` returns the empty sibling list and no
error, whatever the hasher. -/
theorem merkle_GenerateProof_absent_address (hash : Int → Int → Except String Int)
    (t : merkle.Tree) (a : Address) (habsent : ∀ node ∈ t.Nodes, node.Address ≠ a) :
    t.GenerateProof hash a = .ok [] := by
  have hnone : t.Nodes.findIdx? (fun node => decide (node.Address = a)) = none := by
    rw [List.findIdx?_eq_none_iff]
    intro node hmem
    exact decide_eq_false (habsent node hmem)
  simp only [merkle.Tree.GenerateProof, hnone]

theorem merkle_GenerateProof_absent_address_witness :
    merkle.Tree.GenerateProof (merkle.okHash sampleHash)
        ⟨1, [⟨1, hexToAddress "0x00000000000000000000000000000000000000aa", 5,
          merkle.PackLeaf (hexToAddress "0x00000000000000000000000000000000000000aa") 5⟩]⟩
        (hexToAddress "0x00000000000000000000000000000000000000bb")
      = .ok [] :=
  merkle_GenerateProof_absent_address (merkle.okHash sampleHash)
    ⟨1, [⟨1, hexToAddress "0x00000000000000000000000000000000000000aa", 5,
      merkle.PackLeaf (hexToAddress "0x00000000000000000000000000000000000000aa") 5⟩]⟩
    (hexToAddress "0x00000000000000000000000000000000000000bb")
    (by
      intro node hmem
      rw [List.mem_singleton] at hmem
      subst hmem
      decide)

/-- C22: the query of `GetWeightChangeEvents` orders by the block number only.  Its `orderBy`
argument is `blockNumber`, not a key that includes the log index, and a response in which two
events of block 7 come with log index 1 before log index 0 is in the order that the query
asks for. -/
theorem subgraph_query_orders_by_block_only :
    (subgraph.weightChangeEventsQuery 1000 0).orderBy = "blockNumber" ∧
    (subgraph.weightChangeEventsQuery 1000 0).orderDirection = "asc" ∧
    subgraph.inRequestedOrder (subgraph.weightChangeEventsQuery 1000 0)
        [subgraph.mkEventAt "0x00000000000000000000000000000000000000aa" "0" "5" "7" "1",
         subgraph.mkEventAt "0x00000000000000000000000000000000000000aa" "5" "0" "7" "0"]
      = true := by
  decide

/-- C23: bounds check of proof generation.  With a hash that never fails, for every leaf list
and every target index, `generateLeanIMTProof` returns an error if and only if the index is at
least the number of leaves; the error is the out-of-bounds error and carries no sibling list,
and for the empty list every index is out of bounds. -/
theorem merkle_proof_bounds_check (h : Int → Int → Int) (leaves : List Int)
    (targetIndex : Nat) :
    ((∃ err, merkle.generateLeanIMTProof (merkle.okHash h) leaves targetIndex = .error err)
      ↔ targetIndex ≥ leaves.length) ∧
    (targetIndex ≥ leaves.length →
      merkle.generateLeanIMTProof (merkle.okHash h) leaves targetIndex
        = .error (.outOfBounds targetIndex leaves.length)) ∧
    (targetIndex < leaves.length →
      ∃ siblings,
        merkle.generateLeanIMTProof (merkle.okHash h) leaves targetIndex = .ok siblings) ∧
    merkle.generateLeanIMTProof (merkle.okHash h) [] targetIndex
      = .error (.outOfBounds targetIndex 0) := by
  have hout : targetIndex ≥ leaves.length →
      merkle.generateLeanIMTProof (merkle.okHash h) leaves targetIndex
        = .error (.outOfBounds targetIndex leaves.length) := by
    intro hge
    simp only [merkle.generateLeanIMTProof, if_pos hge]
  have hin : targetIndex < leaves.length →
      ∃ siblings,
        merkle.generateLeanIMTProof (merkle.okHash h) leaves targetIndex = .ok siblings := by
    intro hlt
    refine ⟨[] ++ merkle.refPathUpTo h leaves targetIndex leaves.length, ?_⟩
    unfold merkle.generateLeanIMTProof
    rw [if_neg (by omega), merkle.proofLoop_okHash h leaves.length leaves targetIndex [] le_rfl]
  refine ⟨⟨?_, ?_⟩, hout, hin, ?_⟩
  · rintro ⟨err, herr⟩
    by_contra hlt
    obtain ⟨siblings, hs⟩ := hin (by omega)
    rw [hs] at herr
    exact absurd herr (by simp)
  · intro hge
    exact ⟨_, hout hge⟩
  · simp [merkle.generateLeanIMTProof]

/-- C26: `census.PackLeaf` is not injective on the `uint64` weights.  The addresses `0x..aa`
and `0x..bb` differ, and with the weight `2^63` both pack to the same leaf `-2^63`. -/
theorem census_PackLeaf_collision_at_int64_overflow :
    hexToAddress "0x00000000000000000000000000000000000000aa"
      ≠ hexToAddress "0x00000000000000000000000000000000000000bb" ∧
    census.PackLeaf (hexToAddress "0x00000000000000000000000000000000000000aa") (2 ^ 63)
      = census.PackLeaf (hexToAddress "0x00000000000000000000000000000000000000bb") (2 ^ 63) ∧
    census.PackLeaf (hexToAddress "0x00000000000000000000000000000000000000aa") (2 ^ 63)
      = -9223372036854775808 := by
  decide

/-- C29: the INSERT branch never inserts the tombstone value.  For every event with
previousWeight `0` and newWeight `w > 0` and every address, the zero address included, the
replay step passes to `tree.Insert` the leaf built from the address and `w`, that leaf is
different from 0, and the step does not end in the insert-failed error. -/
theorem census_insert_leaf_ne_zero (H : String → Address) (tree : LeanIMT) (i : Nat)
    (e : census.weightChangeEvent) (w : Nat)
    (hp : strconv.ParseUint e.previousWeight = some 0)
    (hn : strconv.ParseUint e.newWeight = some w) (hw : 0 < w) :
    bigOr (bigLsh (bigSetBytes (H e.accountID).bytes) 88) (int64OfUint64 w) ≠ 0 ∧
    census.replayEvent H tree i e =
      (match tree.Insert
          (bigOr (bigLsh (bigSetBytes (H e.accountID).bytes) 88) (int64OfUint64 w)) with
        | none => .error (.insertFailed i)
        | some tree1 => .ok tree1) ∧
    ∀ j, census.replayEvent H tree i e ≠ .error (.insertFailed j) := by
  have hne := census.PackLeaf_ne_zero_of_pos (H e.accountID) w hw (strconv.ParseUint_lt _ _ hn)
  refine ⟨hne, ?_, ?_⟩
  · rw [census.replayEvent_parsed H tree i e 0 w hp hn, if_pos ⟨rfl, hw⟩]
    rfl
  · intro j
    rw [census.replayEvent_insert H tree i e w hp hn hw]
    simp

theorem census_insert_leaf_ne_zero_witness :
    bigOr (bigLsh (bigSetBytes
        (hexToAddress "0x0000000000000000000000000000000000000000").bytes) 88)
      (int64OfUint64 1) ≠ 0 ∧
    census.replayEvent hexToAddress LeanIMT.New 0
        (census.mkEvent "0x0000000000000000000000000000000000000000" "0" "1") =
      (match LeanIMT.New.Insert
          (bigOr (bigLsh (bigSetBytes
            (hexToAddress "0x0000000000000000000000000000000000000000").bytes) 88)
            (int64OfUint64 1)) with
        | none => .error (.insertFailed 0)
        | some tree1 => .ok tree1) ∧
    ∀ j, census.replayEvent hexToAddress LeanIMT.New 0
        (census.mkEvent "0x0000000000000000000000000000000000000000" "0" "1")
      ≠ .error (.insertFailed j) :=
  census_insert_leaf_ne_zero hexToAddress LeanIMT.New 0
    (census.mkEvent "0x0000000000000000000000000000000000000000" "0" "1") 1
    (by decide) (by decide) (by decide)

/-- C30: the confirmation count wraps around.  For a successful receipt mined in block 10,
the current block number 9 and `confirmations = 1`, the difference `9 - 10` is `2^64 - 1` in
`uint64`, so one pass of the loop returns the receipt although `9 ≥ 10 + 1` is false. -/
theorem delegate_confirmations_wrap_around :
    delegate.waitForConfirmationsPass (.ok ⟨1, 10⟩) (.ok 9) 1 = .confirmed ⟨1, 10⟩ ∧
    ¬ ((9 : Int) ≥ 10 + 1) ∧
    delegate.waitForConfirmations (fun _ => .ok ⟨1, 10⟩) (fun _ => .ok 9) 1 1 0
      = some (.confirmed ⟨1, 10⟩) := by
  decide

/-! ## The enumeration of the delegation tool: claims -/

/-- C27: the positions in `Nodes` do not match the on-chain indices, and the proof is not the
one of the on-chain slot.  For a contract whose slot 0 is empty and whose slot 1 holds the
account `0x..aa`, `merkle.ReconstructTree` returns a tree whose node at position 0 has
`Index = 1`.  `GenerateProof` then computes the proof of position 0 in the one-leaf list (the
empty proof), whereas the proof of slot 1 in the on-chain leaf list `[0, leaf]` is `[0]`. -/
theorem merkle_node_position_differs_from_index :
    merkle.ReconstructTree merkle.sampleContract 2 4
      = some (.ok ⟨1, [⟨1, hexToAddress "0x00000000000000000000000000000000000000aa", 5,
          merkle.PackLeaf (hexToAddress "0x00000000000000000000000000000000000000aa") 5⟩]⟩) ∧
    ([(⟨1, hexToAddress "0x00000000000000000000000000000000000000aa", 5,
        merkle.PackLeaf (hexToAddress "0x00000000000000000000000000000000000000aa") 5⟩ :
          merkle.TreeNode)].map fun node => node.Index) ≠ [0] ∧
    merkle.Tree.GenerateProof (merkle.okHash sampleHash)
        ⟨1, [⟨1, hexToAddress "0x00000000000000000000000000000000000000aa", 5,
          merkle.PackLeaf (hexToAddress "0x00000000000000000000000000000000000000aa") 5⟩]⟩
        (hexToAddress "0x00000000000000000000000000000000000000aa")
      = .ok [] ∧
    merkle.generateLeanIMTProof (merkle.okHash sampleHash)
        [0, merkle.PackLeaf (hexToAddress "0x00000000000000000000000000000000000000aa") 5] 1
      = .ok [0] := by
  decide

/-! ## Lemmas on byte strings -/

theorem beValue_append (xs ys : List Byte) :
    beValue (xs ++ ys) = beValue xs * 256 ^ ys.length + beValue ys := by
  induction xs with
  | nil => simp [beValue]
  | cons b xs ih =>
    show b.val * 256 ^ (xs ++ ys).length + beValue (xs ++ ys) = _
    rw [ih, List.length_append, pow_add]
    simp only [beValue]
    ring

theorem beValue_replicate_zero (m : Nat) : beValue (List.replicate m (0 : Byte)) = 0 := by
  induction m with
  | zero => rfl
  | succ m ih => simp [List.replicate_succ, beValue, ih]

/-- The bytes written by `natBytesAux` read back as the number, in front of `acc`. -/
theorem natBytesAux_beValue :
    ∀ (fuel n : Nat) (acc : List Byte), n ≤ fuel →
      beValue (natBytesAux fuel n acc) = n * 256 ^ acc.length + beValue acc := by
  intro fuel
  induction fuel with
  | zero =>
    intro n acc h
    have hn : n = 0 := by omega
    subst hn
    simp [natBytesAux]
  | succ fuel ih =>
    intro n acc h
    simp only [natBytesAux]
    by_cases h0 : n = 0
    · rw [if_pos h0, h0]
      simp
    · rw [if_neg h0]
      have hlt : n / 256 ≤ fuel := by
        have : n / 256 < n := Nat.div_lt_self (by omega) (by decide)
        omega
      rw [ih (n / 256) _ hlt]
      simp only [beValue, List.length_cons, pow_succ]
      have hsplit : n = 256 * (n / 256) + n % 256 := (Nat.div_add_mod n 256).symm
      generalize 256 ^ acc.length = P
      generalize beValue acc = V
      have hexp : n * P = (256 * (n / 256) + n % 256) * P := by rw [← hsplit]
      rw [hexp]
      ring

theorem bigBytes_beValue (n : Nat) : beValue (bigBytes (Int.ofNat n)) = n := by
  have h := natBytesAux_beValue n n [] le_rfl
  simpa [bigBytes, beValue] using h

/-- Byte strings of the same length with the same big-endian value are equal. -/
theorem beValue_injective :
    ∀ (xs ys : List Byte), xs.length = ys.length → beValue xs = beValue ys → xs = ys := by
  intro xs
  induction xs with
  | nil =>
    intro ys hlen _
    cases ys with
    | nil => rfl
    | cons y ys => simp at hlen
  | cons x xs ih =>
    intro ys hlen hval
    cases ys with
    | nil => simp at hlen
    | cons y ys =>
      simp only [List.length_cons, Nat.add_right_cancel_iff] at hlen
      simp only [beValue, hlen] at hval
      have hx := beValue_lt xs
      have hy := beValue_lt ys
      rw [hlen] at hx
      have hpos : 0 < 256 ^ ys.length := by positivity
      generalize 256 ^ ys.length = P at hval hx hy hpos
      have hxy : x.val = y.val := by
        rcases Nat.lt_trichotomy x.val y.val with hlt | heq | hgt
        · have : (x.val + 1) * P ≤ y.val * P := Nat.mul_le_mul_right P hlt
          rw [Nat.add_mul] at this
          omega
        · exact heq
        · have : (y.val + 1) * P ≤ x.val * P := Nat.mul_le_mul_right P hgt
          rw [Nat.add_mul] at this
          omega
      have hrest : beValue xs = beValue ys := by
        rw [hxy] at hval
        omega
      rw [Fin.ext hxy, ih ys hlen hrest]

theorem Address.value_injective (a b : Address) (h : a.value = b.value) : a = b := by
  have hbytes : a.bytes = b.bytes :=
    beValue_injective a.bytes b.bytes (by rw [a.size, b.size]) h
  cases a
  cases b
  simp only [Address.mk.injEq]
  exact hbytes

/-! ## Unpacking the identity: claim -/

/-- C24: `census.UnpackLeaf` recovers the identity by shifting right by 88 and keeping the
lower 160 bits.  For every non-negative leaf `L` the address returned has the big-endian
value `(L / 2^88) mod 2^160`, and it is the only 20-byte address with that value, that is the
20-byte big-endian encoding, zero bytes in front. -/
theorem census_UnpackLeaf_address (L : Nat) :
    (census.UnpackLeaf (Int.ofNat L)).1.value = L / 2 ^ 88 % 2 ^ 160 ∧
    (census.UnpackLeaf (Int.ofNat L)).1.bytes.length = 20 ∧
    ∀ a : Address, a.value = L / 2 ^ 88 % 2 ^ 160 → a = (census.UnpackLeaf (Int.ofNat L)).1 := by
  have hval : (census.UnpackLeaf (Int.ofNat L)).1.value = L / 2 ^ 88 % 2 ^ 160 := by
    have hbytes := bigBytes_beValue (L / 2 ^ 88)
    have hlt := beValue_lt (bigBytes (Int.ofNat (L / 2 ^ 88)))
    have hshape : (census.UnpackLeaf (Int.ofNat L)).1.bytes =
        if (bigBytes (Int.ofNat (L / 2 ^ 88))).length ≤ 20 then
          goCopy Address.zero.bytes (20 - (bigBytes (Int.ofNat (L / 2 ^ 88))).length)
            (bigBytes (Int.ofNat (L / 2 ^ 88)))
        else
          goCopy Address.zero.bytes 0
            ((bigBytes (Int.ofNat (L / 2 ^ 88))).drop
              ((bigBytes (Int.ofNat (L / 2 ^ 88))).length - 20)) := by
      simp only [census.UnpackLeaf, bigRsh, Nat.shiftRight_eq_div_pow]
      split <;> rfl
    unfold Address.value
    rw [hshape]
    generalize bigBytes (Int.ofNat (L / 2 ^ 88)) = bs at hbytes hlt
    have hz : Address.zero.bytes = List.replicate 20 0 := rfl
    split
    · rename_i hle
      have hpow : 256 ^ bs.length ≤ 256 ^ 20 := Nat.pow_le_pow_right (by decide) hle
      have hsmall : L / 2 ^ 88 < 2 ^ 160 := by
        have h256 : (256 : Nat) ^ 20 = 2 ^ 160 := by norm_num
        omega
      rw [Nat.mod_eq_of_lt hsmall]
      have hcopy : goCopy Address.zero.bytes (20 - bs.length) bs
          = List.replicate (20 - bs.length) 0 ++ bs := by
        simp only [goCopy, hz, List.length_replicate, List.take_replicate, List.drop_replicate]
        have h1 : min (20 - bs.length) 20 = 20 - bs.length := by omega
        have h2 : 20 - (20 - bs.length) = bs.length := by omega
        have h3 : 20 - (20 - bs.length + min bs.length bs.length) = 0 := by
          rw [Nat.min_self]; omega
        rw [h1, h2, h3, List.take_length]
        simp
      rw [hcopy, beValue_append, beValue_replicate_zero, hbytes]
      simp
    · rename_i hgt
      have hlen : (bs.drop (bs.length - 20)).length = 20 := by
        rw [List.length_drop]; omega
      have hcopyGen : ∀ d : List Byte, d.length = 20 → goCopy Address.zero.bytes 0 d = d := by
        intro d hd
        simp only [goCopy, hz, List.length_replicate, List.take_zero, List.nil_append,
          Nat.sub_zero, hd, Nat.min_self, Nat.zero_add, List.drop_replicate, Nat.sub_self,
          List.replicate_zero, List.append_nil]
        exact List.take_of_length_le (by omega)
      rw [hcopyGen _ hlen]
      have hsplit := beValue_append (bs.take (bs.length - 20)) (bs.drop (bs.length - 20))
      rw [List.take_append_drop, hbytes, hlen] at hsplit
      have hdlt := beValue_lt (bs.drop (bs.length - 20))
      rw [hlen] at hdlt
      have h256 : (256 : Nat) ^ 20 = 2 ^ 160 := by norm_num
      rw [h256] at hsplit hdlt
      rw [hsplit, Nat.mul_comm, Nat.mul_add_mod, Nat.mod_eq_of_lt hdlt]
  refine ⟨hval, (census.UnpackLeaf (Int.ofNat L)).1.size, ?_⟩
  intro a ha
  exact Address.value_injective _ _ (by rw [ha, hval])

/-! ## Proof length: lemmas and claim -/

namespace merkle

/-- Every round of the loop adds at most one sibling, and there are `clog 2` of the level
length rounds. -/
theorem proofLoop_length_le (h : Int → Int → Int) :
    ∀ (fuel : Nat) (level : List Int) (i : Nat) (acc : List Int), level.length ≤ fuel →
      ∃ siblings, proofLoop (okHash h) fuel level i acc = .ok siblings ∧
        siblings.length ≤ acc.length + Nat.clog 2 level.length := by
  intro fuel
  induction fuel with
  | zero =>
    intro level i acc _
    exact ⟨acc, rfl, by omega⟩
  | succ fuel ih =>
    intro level i acc hlen
    by_cases hgt : level.length > 1
    · have hnext : (LeanIMT.hashLevel h level).length ≤ fuel := by
        rw [LeanIMT.hashLevel_length h _ level le_rfl]
        omega
      have hclog : Nat.clog 2 level.length = Nat.clog 2 ((level.length + 1) / 2) + 1 :=
        Nat.clog_of_two_le (by decide) hgt
      have key : ∀ acc1 : List Int, acc1.length ≤ acc.length + 1 →
          ∃ siblings,
            proofLoop (okHash h) fuel (LeanIMT.hashLevel h level) (i / 2) acc1 = .ok siblings ∧
              siblings.length ≤ acc.length + Nat.clog 2 level.length := by
        intro acc1 hacc1
        obtain ⟨s, hs, hl⟩ := ih (LeanIMT.hashLevel h level) (i / 2) acc1 hnext
        refine ⟨s, hs, ?_⟩
        rw [LeanIMT.hashLevel_length h _ level le_rfl] at hl
        omega
      simp only [proofLoop, if_pos hgt, buildNextLevel_okHash h _ level le_rfl]
      generalize (if i % 2 = 0 then i + 1 else i - 1) = si
      apply key
      by_cases hsi : si < level.length
      · rw [dif_pos hsi]
        simp
      · rw [dif_neg hsi]
        omega
    · refine ⟨acc, ?_, by omega⟩
      simp only [proofLoop, if_neg hgt]

/-- On a level of `2^d` nodes every round finds a sibling. -/
theorem proofLoop_length_pow (h : Int → Int → Int) :
    ∀ (d fuel : Nat) (level : List Int) (i : Nat) (acc : List Int),
      level.length = 2 ^ d → i < 2 ^ d → level.length ≤ fuel →
      ∃ siblings, proofLoop (okHash h) fuel level i acc = .ok siblings ∧
        siblings.length = acc.length + d := by
  intro d
  induction d with
  | zero =>
    intro fuel level i acc hlen _ _
    refine ⟨acc, ?_, rfl⟩
    have hgt : ¬ level.length > 1 := by rw [hlen]; decide
    cases fuel with
    | zero => rfl
    | succ fuel => simp only [proofLoop, if_neg hgt]
  | succ d ih =>
    intro fuel level i acc hlen hi hfuel
    have hpos : 0 < 2 ^ d := by positivity
    have hpow : 2 ^ (d + 1) = 2 * 2 ^ d := by rw [pow_succ, Nat.mul_comm]
    have hgt : level.length > 1 := by omega
    obtain ⟨f, rfl⟩ : ∃ f, fuel = f + 1 := ⟨fuel - 1, by omega⟩
    have hnextlen : (LeanIMT.hashLevel h level).length = 2 ^ d := by
      rw [LeanIMT.hashLevel_length h _ level le_rfl]
      omega
    have hsib : (if i % 2 = 0 then i + 1 else i - 1) < level.length := by
      split <;> omega
    simp only [proofLoop, if_pos hgt, buildNextLevel_okHash h _ level le_rfl, dif_pos hsib]
    obtain ⟨s, hs, hl⟩ := ih f (LeanIMT.hashLevel h level) (i / 2)
      (acc ++ [level[if i % 2 = 0 then i + 1 else i - 1]]) hnextlen (by omega) (by omega)
    refine ⟨s, hs, ?_⟩
    simp only [List.length_append, List.length_singleton] at hl
    omega

end merkle

/-- C28: proof length bound.  For every non-empty leaf list of length `n` and every index
`i < n`, with a hash that does not fail, the list returned by `generateLeanIMTProof` has at
most `ceil (log2 n)` entries, and exactly `ceil (log2 n)` entries when `n` is a power of
two. -/
theorem merkle_proof_length_bound (h : Int → Int → Int) (leaves : List Int) (i : Nat)
    (hi : i < leaves.length) :
    ∃ siblings, merkle.generateLeanIMTProof (merkle.okHash h) leaves i = .ok siblings ∧
      siblings.length ≤ Nat.clog 2 leaves.length ∧
      ((∃ d, leaves.length = 2 ^ d) → siblings.length = Nat.clog 2 leaves.length) := by
  obtain ⟨s, hs, hl⟩ := merkle.proofLoop_length_le h leaves.length leaves i [] le_rfl
  have hgen : merkle.generateLeanIMTProof (merkle.okHash h) leaves i = .ok s := by
    unfold merkle.generateLeanIMTProof
    rw [if_neg (by omega), hs]
  refine ⟨s, hgen, by simpa using hl, ?_⟩
  rintro ⟨d, hd⟩
  obtain ⟨s2, hs2, hl2⟩ := merkle.proofLoop_length_pow h d leaves.length leaves i [] hd
    (by omega) le_rfl
  rw [hs] at hs2
  have heq : s = s2 := by simpa using hs2
  rw [heq, hl2, hd, Nat.clog_pow 2 d (by decide)]
  simp

theorem merkle_proof_length_bound_witness :
    ∃ siblings,
      merkle.generateLeanIMTProof (merkle.okHash sampleHash) [1, 2, 3, 4] 2 = .ok siblings ∧
      siblings.length ≤ Nat.clog 2 [(1 : Int), 2, 3, 4].length ∧
      ((∃ d, [(1 : Int), 2, 3, 4].length = 2 ^ d) →
        siblings.length = Nat.clog 2 [(1 : Int), 2, 3, 4].length) :=
  merkle_proof_length_bound sampleHash [1, 2, 3, 4] 2 (by decide)

/-! ## Recomputing the root from a proof: lemmas -/

namespace LeanIMT

/-- The node `j` of the next level: the hash of the pair `(2j, 2j+1)`, or the copy of the
last node `2j` when it has no partner. -/
theorem hashLevel_getElem? (h : Int → Int → Int) :
    ∀ (j : Nat) (l : List Int),
      (hashLevel h l)[j]? =
        match l[2 * j]?, l[2 * j + 1]? with
        | some a, some b => some (h a b)
        | some a, none => some a
        | none, _ => none := by
  intro j
  induction j with
  | zero =>
    intro l
    match l with
    | [] => simp [hashLevel]
    | [a] => simp [hashLevel]
    | a :: b :: rest => simp [hashLevel]
  | succ j ih =>
    intro l
    match l with
    | [] => simp [hashLevel]
    | [a] =>
      have h1 : 2 * (j + 1) = 2 * j + 1 + 1 := by ring
      simp [hashLevel, h1]
    | a :: b :: rest =>
      have h1 : 2 * (j + 1) = 2 * j + 1 + 1 := by ring
      have h2 : 2 * (j + 1) + 1 = 2 * j + 1 + 1 + 1 := by ring
      simp only [hashLevel, List.getElem?_cons_succ, h1, h2]
      exact ih rest

end LeanIMT

namespace merkle

theorem foldProof_single (h : Int → Int → Int) :
    ∀ (m k : Nat) (node : Int) (siblings : List Int),
      foldProof h 1 0 k m node siblings = some (node, siblings) := by
  intro m
  induction m with
  | zero => intro k node siblings; rfl
  | succ m ih =>
    intro k node siblings
    simp only [foldProof, Nat.zero_testBit, Bool.false_eq_true, if_false, Nat.sub_self,
      Nat.zero_div, ne_eq, not_true_eq_false]
    exact ih (k + 1) node siblings

/-- The fold from level `k + 1` on is the fold from level `k` on in the tree of the next
level. -/
theorem foldProof_shift (h : Int → Int → Int) (n i : Nat) (hn : 1 ≤ n) :
    ∀ (m k : Nat) (node : Int) (siblings : List Int),
      foldProof h n i (k + 1) m node siblings
        = foldProof h ((n + 1) / 2) (i / 2) k m node siblings := by
  intro m
  induction m with
  | zero => intro k node siblings; rfl
  | succ m ih =>
    intro k node siblings
    have hbit : i.testBit (k + 1) = (i / 2).testBit k := Nat.testBit_succ i k
    have hdiv : i / 2 ^ (k + 1) = i / 2 / 2 ^ k := by
      rw [Nat.div_div_eq_div_mul, pow_succ, Nat.mul_comm]
    have hlast : (n - 1) / 2 ^ (k + 1) = ((n + 1) / 2 - 1) / 2 ^ k := by
      have : (n + 1) / 2 - 1 = (n - 1) / 2 := by omega
      rw [this, Nat.div_div_eq_div_mul, pow_succ, Nat.mul_comm]
    simp only [foldProof, hbit, hdiv, hlast]
    split
    · cases siblings with
      | nil => rfl
      | cons s rest => exact ih (k + 1) (h s node) rest
    · split
      · cases siblings with
        | nil => rfl
        | cons s rest => exact ih (k + 1) (h node s) rest
      · exact ih (k + 1) node siblings

end merkle

namespace merkle

/-- Folding the reference sibling path of position `p` over the node at `p` gives the single
node of the top level and uses up the path. -/
theorem foldProof_refPath (h : Int → Int → Int) :
    ∀ (m : Nat) (level : List Int) (p : Nat) (node : Int),
      level[p]? = some node → level.length ≤ m →
      ∃ top, refLevel h level m = [top] ∧
        foldProof h level.length p 0 m node (refPathUpTo h level p m) = some (top, []) := by
  intro m
  induction m with
  | zero =>
    intro level p node hnode hlen
    have hp : p < level.length := (List.getElem?_eq_some.mp hnode).1
    omega
  | succ m ih =>
    intro level p node hnode hlen
    have hp : p < level.length := (List.getElem?_eq_some.mp hnode).1
    by_cases hgt : level.length > 1
    · have hnextlen : (LeanIMT.hashLevel h level).length = (level.length + 1) / 2 :=
        LeanIMT.hashLevel_length h _ level le_rfl
      have hentry : refEntry h level p 0 = level[p ^^^ 1]? := by
        simp only [refEntry, refLevel, pow_zero, Nat.div_one]
        rw [if_pos hgt]
      have hup := LeanIMT.hashLevel_getElem? h (p / 2) level
      have hstep : ∀ (up : Int), (LeanIMT.hashLevel h level)[p / 2]? = some up →
          ∃ top, refLevel h level (m + 1) = [top] ∧
            foldProof h ((level.length + 1) / 2) (p / 2) 0 m up
              (refPathUpTo h (LeanIMT.hashLevel h level) (p / 2) m) = some (top, []) := by
        intro up hupnode
        obtain ⟨top, htop, hfold⟩ := ih (LeanIMT.hashLevel h level) (p / 2) up hupnode
          (by rw [hnextlen]; omega)
        rw [hnextlen] at hfold
        exact ⟨top, by rw [← refLevel_hashLevel]; exact htop, hfold⟩
      rw [refPathUpTo_succ, hentry, xor_one_eq]
      have hbit : p.testBit 0 = decide (p % 2 = 1) := Nat.testBit_zero p
      by_cases hodd : p % 2 = 1
      · -- the node is a right child: the sibling is on the left
        have hne : ¬ p % 2 = 0 := by omega
        have hsib : p - 1 < level.length := by omega
        have h2 : 2 * (p / 2) = p - 1 := by omega
        have h3 : 2 * (p / 2) + 1 = p := by omega
        rw [h3, h2, List.getElem?_eq_getElem hsib, hnode] at hup
        obtain ⟨top, htop, hfold⟩ := hstep _ hup
        refine ⟨top, htop, ?_⟩
        rw [if_neg hne, List.getElem?_eq_getElem hsib]
        simp only [Option.toList, List.singleton_append, foldProof, hbit, hodd, decide_True,
          if_true]
        rw [foldProof_shift h level.length p (by omega)]
        exact hfold
      · have heven : p % 2 = 0 := by omega
        have h2 : 2 * (p / 2) = p := by omega
        rw [if_pos heven]
        by_cases hsib : p + 1 < level.length
        · -- the node is a left child with a sibling on the right
          rw [h2, hnode, List.getElem?_eq_getElem hsib] at hup
          obtain ⟨top, htop, hfold⟩ := hstep _ hup
          refine ⟨top, htop, ?_⟩
          have hnotlast : p / 2 ^ 0 ≠ (level.length - 1) / 2 ^ 0 := by
            simp only [pow_zero, Nat.div_one]
            omega
          rw [List.getElem?_eq_getElem hsib]
          simp only [Option.toList, List.singleton_append, foldProof, hbit, hodd, decide_False,
            Bool.false_eq_true, if_false, if_pos hnotlast]
          rw [foldProof_shift h level.length p (by omega)]
          exact hfold
        · -- the node is the unpaired last node: it is passed up unchanged
          have hnone : level[p + 1]? = none := List.getElem?_eq_none (by omega)
          rw [h2, hnode, hnone] at hup
          obtain ⟨top, htop, hfold⟩ := hstep _ hup
          refine ⟨top, htop, ?_⟩
          have hlast : ¬ (p / 2 ^ 0 ≠ (level.length - 1) / 2 ^ 0) := by
            simp only [pow_zero, Nat.div_one]
            omega
          rw [hnone]
          simp only [Option.toList, List.nil_append, foldProof, hbit, hodd, decide_False,
            Bool.false_eq_true, if_false, if_neg hlast]
          rw [foldProof_shift h level.length p (by omega)]
          exact hfold
    · have hshort : level.length ≤ 1 := by omega
      have hlen1 : level.length = 1 := by omega
      have hp0 : p = 0 := by omega
      subst hp0
      have hlevel : level = [node] := by
        match level, hlen1, hnode with
        | [a], _, hnode =>
          simp only [List.getElem?_cons_zero, Option.some.injEq] at hnode
          rw [hnode]
      refine ⟨node, ?_, ?_⟩
      · rw [refLevel_of_short h level hshort, hlevel]
      · rw [refPathUpTo_of_short h level hshort, hlen1]
        exact foldProof_single h (m + 1) 0 node []

end merkle

/-- C25: proofs recompute the root.  For every non-empty leaf list of length `n` and every
index `i < n`, with a hash that does not fail: folding the list returned by
`generateLeanIMTProof leaves i` over `leaves[i]` level by level (at level `k`: if bit `k` of
`i` is 1, the node becomes `hash sibling node`; else if `i / 2^k ≠ (n - 1) / 2^k`, the node
becomes `hash node sibling`; else the node is kept and no sibling is consumed) uses every
sibling once, leaves none over, and ends with the single node of the level where the pairing
of the leaves stops, the root. -/
theorem merkle_proof_recomputes_root (h : Int → Int → Int) (leaves : List Int) (i : Nat)
    (hi : i < leaves.length) :
    ∃ siblings root,
      merkle.generateLeanIMTProof (merkle.okHash h) leaves i = .ok siblings ∧
      merkle.refLevel h leaves leaves.length = [root] ∧
      merkle.foldProof h leaves.length i 0 leaves.length leaves[i] siblings
        = some (root, []) := by
  obtain ⟨root, hroot, hfold⟩ := merkle.foldProof_refPath h leaves.length leaves i leaves[i]
    (List.getElem?_eq_getElem hi) le_rfl
  refine ⟨merkle.refPathUpTo h leaves i leaves.length, root, ?_, hroot, hfold⟩
  unfold merkle.generateLeanIMTProof
  rw [if_neg (by omega), merkle.proofLoop_okHash h leaves.length leaves i [] le_rfl]
  rfl

theorem merkle_proof_recomputes_root_witness :
    merkle.foldProof sampleHash 5 2 0 5 3 [4, sampleHash 1 2, 5]
      = some (sampleHash (sampleHash (sampleHash 1 2) (sampleHash 3 4)) 5, []) ∧
    ∃ siblings root,
      merkle.generateLeanIMTProof (merkle.okHash sampleHash) [1, 2, 3, 4, 5] 2
        = .ok siblings ∧
      merkle.refLevel sampleHash [1, 2, 3, 4, 5] [(1 : Int), 2, 3, 4, 5].length = [root] ∧
      merkle.foldProof sampleHash [(1 : Int), 2, 3, 4, 5].length 2 0
          [(1 : Int), 2, 3, 4, 5].length ([(1 : Int), 2, 3, 4, 5][2]) siblings
        = some (root, []) :=
  ⟨by decide, merkle_proof_recomputes_root sampleHash [1, 2, 3, 4, 5] 2 (by decide)⟩
